import Mathlib

/-!
Shallow embedding of the TiltR batch orchestration core
(`src/robot/files/tiltr/driver/batch.py`) and of the multiple-choice
scoring code (`src/docker/machine/app/tiltr/question/questions/multiple_choice.py`),
with theorems settling the frozen specification claims.

Python strings are embedded as `String` (with the character-level logic on
`List Char`), Python `Decimal` values as `ℚ` together with an explicit
fixed-point rendering, dictionaries as association lists, and exceptions as
`Except` values.  The classes `Result` / `ErrorDomain` live in
`tiltr/data/result.py` / `tiltr/data/exceptions.py`, which are not part of the
sources; the small slices of them that the batch driver uses are modelled from
the spec and marked as such.
-/

namespace Tiltr

/-- Modelled from the spec (§7): the error-domain taxonomy of
`tiltr/data/exceptions.py` (not under the sources), ascending severity
`none < interaction < integrity < unknown`.  `value` mirrors the Python
enum's `.value` used in `Run.analyze` (`worst.value > ErrorDomain.none.value`). -/
inductive ErrorDomain where
  | none
  | interaction
  | integrity
  | unknown
deriving DecidableEq, Repr

/-- The Python enum's numeric `.value`, in ascending severity order. -/
def ErrorDomain.value : ErrorDomain → Nat
  | .none => 0
  | .interaction => 1
  | .integrity => 2
  | .unknown => 3

/-- Modelled from the spec (§7): the name used in `FAIL/<domain>` codes
(`TiltrException.get_error_domain_name`). -/
def ErrorDomain.name : ErrorDomain → String
  | .none => "none"
  | .interaction => "interaction"
  | .integrity => "integrity"
  | .unknown => "unknown"

/-- Modelled from the spec (§4.1/§7): `most_severe` from
`tiltr/data/exceptions.py` — the most severe domain of a list, `none` on an
empty list. -/
def most_severe (ds : List ErrorDomain) : ErrorDomain :=
  ds.foldl (fun a b => if a.value < b.value then b else a) ErrorDomain.none

/-- Modelled from the spec: `Origin` from `tiltr/data/result.py`. -/
inductive Origin where
  | recorded
  | exported
deriving DecidableEq, Repr

/-- A value stored in a `Result` property.  The spec calls `Result` a mapping
to "typed" values; the batch driver only needs strings (scores) and booleans
(recorded answer dimensions), plus Python truthiness for `compute_score`. -/
inductive Value where
  | str (s : String)
  | bool (b : Bool)
deriving DecidableEq, Repr

/-- Python truthiness of a stored value (`if checked:` in `compute_score`). -/
def Value.truthy : Value → Bool
  | .str s => s ≠ ""
  | .bool b => b

/-- Result keys: ordered tuples of string segments (spec §6). -/
abbrev Key := List String

/-- Modelled from the spec (§3, §4.1): the slice of `tiltr/data/result.py`
that the batch driver uses — a mapping from composite keys to typed values
(keys unique, last write wins), an error domain (`none` for a success
result), and the protocol lines. -/
structure Result where
  properties : List (Key × Value) := []
  errorDomain : ErrorDomain := ErrorDomain.none
  protocol : List String := []
deriving DecidableEq, Repr

/-- Modelled from the spec: `Result.from_error(origin, domain, traceback)` —
a synthetic failed result carrying the given error domain. -/
def Result.from_error (_origin : Origin) (domain : ErrorDomain)
    (traceback : String) : Result :=
  { properties := [], errorDomain := domain, protocol := [traceback] }

/-- Modelled from the spec: `Result(from_json=...)` — a success result built
from the worker's `DONE` payload. -/
def Result.from_json (properties : List (Key × Value)) : Result :=
  { properties := properties, errorDomain := ErrorDomain.none, protocol := [] }

/-- Modelled from the spec: `Result.get_most_severe_error`. -/
def Result.get_most_severe_error (r : Result) : ErrorDomain :=
  r.errorDomain

/-- First value stored at a key. -/
def Result.lookup (r : Result) (key : Key) : Option Value :=
  (r.properties.find? (fun kv => kv.1 = key)).map Prod.snd

/-- Modelled from the spec (§3 invariants): `Result.update(key, value)` —
keys are unique within one result, last write wins. -/
def Result.update (r : Result) (key : Key) (value : Value) : Result :=
  { r with properties :=
      if r.properties.any (fun kv => kv.1 = key) then
        r.properties.map (fun kv => if kv.1 = key then (key, value) else kv)
      else
        r.properties ++ [(key, value)] }

/-- Modelled from the spec (§6 key convention): `Result.score_keys(title)` —
the per-question score keys of one question, used both when a worker records
its score (`answer.py`) and when readjustment rewrites it (`batch.py`). -/
def Result.score_keys (title : String) : List Key :=
  [["question", title, "score"]]

/-- The per-question score entry of one stored property, if it is one. -/
def scoreEntry? (kv : Key × Value) : Option Value :=
  match kv.1 with
  | ["question", _, "score"] => some kv.2
  | _ => Option.none

/-- Modelled from the spec: `Result.scores()` — the values stored at
per-question score keys. -/
def Result.scores (r : Result) : List Value :=
  r.properties.filterMap scoreEntry?

/-- `encode_success` (batch.py line 52): `"/".join(success)`.  Python joins
any iterable of strings; `Batch.add_socket` passes the plain *string*
`"UNKNOWN"`, which Python iterates character by character, so the embedding
keeps both shapes. -/
inductive SuccessCode where
  | tup (parts : List String)
  | raw (s : String)
deriving DecidableEq, Repr

/-- `encode_success(success)` = `"/".join(success)`: a tuple joins its parts,
a raw Python string joins its characters. -/
def encode_success : SuccessCode → String
  | .tup parts => String.intercalate "/" parts
  | .raw s => String.intercalate "/" (s.data.map fun c => String.mk [c])

/-! ## Dispatch protocol (`take_exam`, batch.py lines 56-132)

One dispatch is driven by a script of server responses: the outcome of the
`POST /start` call and, for each `GET /monitor` poll, either a connection
error or an HTTP status with a decoded JSON body (a list of
`[command, payload]` pairs).  A Python exception inside the `try` block is
one of: a `TiltrException` carrying a domain, a
`requests.exceptions.ConnectionError`, or any other exception — matching the
three `except` clauses. -/

/-- The three exception classes distinguished by `take_exam`'s handlers. -/
inductive PyErr where
  | tiltr (d : ErrorDomain)
  | connError
  | other
deriving DecidableEq, Repr

/-- Outcome of one HTTP call: refused/reset connection, or a status code
(with, for monitor calls, the decoded message list). -/
inductive StartResp where
  | connError
  | status (code : Nat)
deriving DecidableEq, Repr

/-- Outcome of one `GET /monitor` poll. -/
inductive PollResp where
  | connError
  | status (code : Nat) (messages : List (String × String))
deriving DecidableEq, Repr

/-- One dispatch's scripted server behaviour. -/
structure Script where
  start : StartResp
  polls : List PollResp
deriving DecidableEq, Repr

/-- The `for command, payload in messages` loop (batch.py lines 92-100):
`ECHO` is reported, `DONE` stores the payload in `result_json` (processing
continues, a later `DONE` overwrites), `ERROR` raises a plain
`Exception(payload)`, anything else raises an `InteractionException`.
Returns the reported echo payloads emitted before any raise, and either the
exception or the final `result_json`. -/
def processMessages : List (String × String) → Option String →
    List String × Except PyErr (Option String)
  | [], res => ([], Except.ok res)
  | (c, p) :: rest, res =>
    if c = "ECHO" then
      (p :: (processMessages rest res).1, (processMessages rest res).2)
    else if c = "DONE" then
      processMessages rest (some p)
    else if c = "ERROR" then
      ([], Except.error PyErr.other)
    else
      ([], Except.error (PyErr.tiltr ErrorDomain.interaction))

/-- The `while result_json is None` polling loop (batch.py lines 77-102),
driven by the remaining scripted poll responses.  Returns the list of cursor
values the polls were issued at, the reported echo payloads, and the
outcome: `some (ok payload)` when a `DONE` arrived, `some (error e)` when an
exception was raised, `none` when the script ran out while the loop would
keep polling.  `index` starts at 0 and is incremented by `len(messages)`
after each successful poll. -/
def pollLoop : List PollResp → Nat →
    List Nat × List String × Option (Except PyErr String)
  | [], _ => ([], [], Option.none)
  | PollResp.connError :: _, index =>
      ([index], [], some (Except.error PyErr.connError))
  | PollResp.status code messages :: rest, index =>
    if code ≠ 200 then
      ([index], [], some (Except.error (PyErr.tiltr ErrorDomain.interaction)))
    else
      match (processMessages messages Option.none).2 with
      | Except.error e =>
          ([index], (processMessages messages Option.none).1,
           some (Except.error e))
      | Except.ok (some payload) =>
          ([index], (processMessages messages Option.none).1,
           some (Except.ok payload))
      | Except.ok Option.none =>
          (index :: (pollLoop rest (index + messages.length)).1,
           (processMessages messages Option.none).1 ++
             (pollLoop rest (index + messages.length)).2.1,
           (pollLoop rest (index + messages.length)).2.2)

/-- `take_exam` (batch.py lines 56-132) as a function of the scripted server
behaviour: the `POST /start` call, then the polling loop; every exception is
caught by one of the three handlers and converted to a synthetic failed
`Result` (`Result.from_error`), a `DONE` payload becomes a success `Result`.
`none` means the polling loop never terminates (worker never answers), in
which case the Python blocks forever and returns nothing. -/
def take_exam (script : Script) : Option Result :=
  match script.start with
  | StartResp.connError =>
      some (Result.from_error Origin.recorded ErrorDomain.interaction "tb")
  | StartResp.status code =>
    if code ≠ 200 then
      some (Result.from_error Origin.recorded ErrorDomain.interaction "tb")
    else
      match (pollLoop script.polls 0).2.2 with
      | Option.none => Option.none
      | some (Except.ok payload) => some (Result.from_json [(["payload"], Value.str payload)])
      | some (Except.error (PyErr.tiltr d)) =>
          some (Result.from_error Origin.recorded d "tb")
      | some (Except.error PyErr.connError) =>
          some (Result.from_error Origin.recorded ErrorDomain.interaction "tb")
      | some (Except.error PyErr.other) =>
          some (Result.from_error Origin.recorded ErrorDomain.integrity "tb")

/-- The cursor values at which the polls of a dispatch are issued. -/
def cursorTrace (script : Script) : List Nat :=
  (pollLoop script.polls 0).1

/-- The sequence of echo payloads a dispatch delivers to the observability
sink, in order. -/
def deliveredEchoes (script : Script) : List String :=
  (pollLoop script.polls 0).2.1

/-- The number of messages returned by one poll response (0 for failures —
such a poll raises before `index` is advanced). -/
def PollResp.numMessages : PollResp → Nat
  | PollResp.connError => 0
  | PollResp.status _ messages => messages.length

/-- The error domain each `except` clause of `take_exam` (batch.py lines
104-129) assigns: a `TiltrException` keeps its own domain, a
`ConnectionError` maps to `interaction`, any other exception to
`integrity`. -/
def pyErrDomain : PyErr → ErrorDomain
  | PyErr.tiltr d => d
  | PyErr.connError => ErrorDomain.interaction
  | PyErr.other => ErrorDomain.integrity

/-- `run_exams` (batch.py lines 472-507): one dispatch per allocated worker,
`pool.map(take_exam, take_exam_args)` — the list of per-worker outcomes in
worker order. -/
def run_exams (scripts : List Script) : List (Option Result) :=
  scripts.map take_exam

/-! ## Export&Verify loop and Run verdict
(`Run._verify_xls` lines 528-558, `Run.analyze` lines 560-586,
`Run.run` lines 615-677)

`_check_results` (one verification round: export the grade sheet, diff every
user's export-result against the recorded result, collect mismatches) drives
a browser session; its per-round verdict "zero mismatches" is the oracle
`checkOk : ℕ → Bool` of the embedding.  `_verify_reimport` (lines 509-526)
unconditionally `return True` when it does not raise. -/

/-- `Run._verify_reimport`'s return value (batch.py line 526): literally
`True`. -/
def verify_reimport : Bool := true

/-- The `for readjustment_round in range(num_readjustments + 1)` loop of
`Run._verify_xls` (lines 532-556): run the round's checks; `break` as soon as
a round fails; fold the round-0 re-import probe in with `and`; readjust
between rounds.  `round` is the current round number, `remaining` how many
rounds follow it. -/
def verifyRounds (checkOk : Nat → Bool) : Nat → Nat → String
  | round, 0 =>
    if !(checkOk round) then "FAIL"
    else if (if round = 0 then checkOk round && verify_reimport
             else checkOk round) then "OK"
    else "FAIL"
  | round, r + 1 =>
    if !(checkOk round) then "FAIL"
    else verifyRounds checkOk (round + 1) r

/-- `Run._verify_xls` (lines 528-558): `num` is
`max(0, int(settings.num_readjustments))`; the loop runs rounds
`0 .. num` and returns `"OK"` or `"FAIL"`. -/
def verify_xls (num : Nat) (checkOk : Nat → Bool) : String :=
  verifyRounds checkOk 0 num

/-- `get_most_severe_error` (batch.py lines 216-217). -/
def get_most_severe_error (results : List Result) : ErrorDomain :=
  most_severe (results.map Result.get_most_severe_error)

/-- `Run.analyze` (lines 560-586), after the protocol/performance copying:
if the most severe per-user error domain exceeds `none`, raise
`TiltrException(worst)` — before `_verify_xls` ever runs; otherwise run
`_verify_xls` and either set `success = ("OK",)` or raise
`IntegrityException` (domain `integrity`). -/
def analyze (results : List Result) (num : Nat) (checkOk : Nat → Bool) :
    Except ErrorDomain (List String) :=
  if ErrorDomain.none.value < (get_most_severe_error results).value then
    Except.error (get_most_severe_error results)
  else if verify_xls num checkOk = "OK" then
    Except.ok ["OK"]
  else
    Except.error ErrorDomain.integrity

/-- The final success code of `Run.run` (lines 615-677) as determined by
`analyze`: a `TiltrException` raised from `analyze` is caught by the
`except TiltrException` handler and sets
`("FAIL", e.get_error_domain_name())`. -/
def run_success (results : List Result) (num : Nat) (checkOk : Nat → Bool) :
    List String :=
  match analyze results num checkOk with
  | Except.ok s => s
  | Except.error d => ["FAIL", d.name]

/-! ## Protocol persistence (`Run._make_protocol` lines 252-275,
`Run.store_into_database` lines 594-609) -/

/-- The fixed section list of `Run._make_protocol`, followed by one section
per user. -/
def protocolSections (usernames : List String) : List String :=
  ["header", "result", "preferences-workarounds", "preferences-settings",
   "master", "readjustment", "log"] ++ usernames

/-- `Run._make_protocol` (lines 252-275) before the final `"\n".join`: the
list of emitted lines — for every section with a non-empty protocol, a
separator, the section name, a separator, a blank, the section's lines, and
a blank. -/
def make_protocol (protocols : String → List String)
    (usernames : List String) : List String :=
  (protocolSections usernames).foldr
    (fun section_ parts =>
      if protocols section_ ≠ [] then
        ([String.mk (List.replicate 80 '-'), section_,
          String.mk (List.replicate 80 '-'), ""] ++
            protocols section_ ++ [""]) ++ parts
      else parts)
    []

/-! ## Score canonicalization (`remove_trailing_zeros`, batch.py lines 202-213)

The character-level logic lives on `List Char`; `remove_trailing_zeros`
wraps it for `String`.  `splitDot` is Python's `s.split(".")`. -/

/-- `s.split(".")` restricted to the separator `'.'`: accumulate the current
segment (reversed) and cut at every dot. -/
def splitDotAux : List Char → List Char → List (List Char)
  | [], acc => [acc.reverse]
  | c :: cs, acc =>
    if c = '.' then acc.reverse :: splitDotAux cs [] else splitDotAux cs (c :: acc)

/-- Python `s.split(".")`. -/
def splitDot (s : List Char) : List (List Char) :=
  splitDotAux s []

/-- The `while s[-1] == "0": s = s[:-1]` loop of branch two. -/
def stripZeros (s : List Char) : List Char :=
  (s.reverse.dropWhile (· = '0')).reverse

/-- `remove_trailing_zeros` (batch.py lines 202-213) on the character list:
split on the dot; if there are exactly two parts and the fractional part is
all zeros, keep only the integer part (`2.00 -> 2`); else if the string ends
in `0`, strip trailing zeros (`2.10 -> 2.1`); else return it unchanged. -/
def removeTZChars (s : List Char) : List Char :=
  let parts := splitDot s
  if parts.length = 2 ∧ (parts.getD 1 []).all (· = '0') then
    parts.getD 0 []
  else if parts.length = 2 ∧ s.getLast? = some '0' then
    stripZeros s
  else
    s

/-- `remove_trailing_zeros` on `String`. -/
def remove_trailing_zeros (s : String) : String :=
  String.mk (removeTZChars s.data)

/-! ## Fixed-point decimal rendering and parsing

`str(Decimal)` for the non-negative, exponent `≤ 0` decimals the harness
handles prints an integer part followed by an exponent-determined number of
fraction digits (so possibly with trailing zeros); `Decimal(string)` parses
it back.  `renderChars m k` renders the value `m / 10^k` with exactly `k`
fraction digits. -/

/-- The decimal digit character of `n % 10`. -/
def digitChar (n : Nat) : Char :=
  Char.ofNat (48 + n % 10)

/-- The decimal digits of a natural number, most significant first. -/
def natChars (n : Nat) : List Char :=
  if h : n < 10 then [digitChar n]
  else
    have : n / 10 < n := Nat.div_lt_self (by omega) (by omega)
    natChars (n / 10) ++ [digitChar n]

/-- Exactly `k` decimal digits of `m % 10^k`, most significant first
(zero-padded). -/
def fixChars : Nat → Nat → List Char
  | 0, _ => []
  | k + 1, m => fixChars k (m / 10) ++ [digitChar m]

/-- `str(Decimal)` of the value `m / 10^k` (exponent `-k`): the integer part
followed by exactly `k` fraction digits. -/
def renderChars (m k : Nat) : List Char :=
  if k = 0 then natChars m else natChars (m / 10 ^ k) ++ '.' :: fixChars k m

/-- Numeric value of a digit list (0 on the empty list, like
`Decimal("2.")`'s empty fraction handling). -/
def parseNat (s : List Char) : Nat :=
  s.foldl (fun a c => a * 10 + (c.toNat - 48)) 0

/-- `Decimal(string)` on the fixed-point strings the harness stores: digits
with at most one dot; `none` on anything else (Python raises). -/
def parseDec? (s : List Char) : Option ℚ :=
  if s.all (fun c => c.isDigit || c = '.') && s.any Char.isDigit then
    match splitDot s with
    | [ip] => some (parseNat ip)
    | [ip, fp] => some ((parseNat ip : ℚ) + (parseNat fp : ℚ) / 10 ^ fp.length)
    | _ => Option.none
  else Option.none

/-- Render a non-negative finite-decimal rational: the minimal number of
fraction places (searched up to 40).  `str(Decimal)` may print the same
value with extra trailing zeros, depending on the exponent the arithmetic
produced; `remove_trailing_zeros` erases exactly that difference (proved
below), so after trimming the minimal rendering is the faithful model. -/
def decStr (x : ℚ) : List Char :=
  match (List.range 41).find? (fun k => ((10 : ℚ) ^ k * x).den = 1) with
  | some k => renderChars ((10 ^ k * x).num.toNat) k
  | Option.none => ['?']

/-- The canonical stored form of a score:
`remove_trailing_zeros(str(score))` (batch.py lines 398 and 411). -/
def canonScore (x : ℚ) : String :=
  String.mk (removeTZChars (decStr x))

/-- The fully trimmed fixed-point representation of `m / 10^k`: divide out
factors of ten while fraction places remain.  `remove_trailing_zeros` maps
the rendering of `(m, k)` to the rendering of `reduceDec m k` (proved
below). -/
def reduceDec : Nat → Nat → Nat × Nat
  | m, 0 => (m, 0)
  | m, k + 1 => if m % 10 = 0 then reduceDec (m / 10) k else (m, k + 1)

/-! ## Multiple-choice scoring (`multiple_choice.py`)

`Decimal` scores are embedded as `ℚ`; the per-choice pair
`MultipleChoiceItem(checked_score, unchecked_score)`; the `choices` dict as
an association list in insertion order. -/

/-- `MultipleChoiceItem` (multiple_choice.py line 20). -/
structure MultipleChoiceItem where
  checked_score : ℚ
  unchecked_score : ℚ
deriving DecidableEq, Repr

/-- Association-list lookup, the Python `dict[key]` (`none` = `KeyError`). -/
def alistGet? {α : Type} (l : List (String × α)) (key : String) : Option α :=
  (l.find? (fun kv => kv.1 = key)).map Prod.snd

/-- Python `dict[key] = value`: overwrite in place if present (keeping the
insertion position), else append. -/
def dictInsert {α : Type} (l : List (String × α)) (key : String) (v : α) :
    List (String × α) :=
  if l.any (fun kv => kv.1 = key) then
    l.map (fun kv => if kv.1 = key then (key, v) else kv)
  else
    l ++ [(key, v)]

/-- `MultipleChoiceQuestion.compute_score` (multiple_choice.py lines
167-175): start from `Decimal(0)` and, for every answered label, add the
choice's checked or unchecked score depending on the (truthiness of the)
recorded answer value; `none` models the `KeyError` on an unknown label. -/
def compute_score (choices : List (String × MultipleChoiceItem))
    (answers : List (String × Value)) : Option ℚ :=
  answers.foldl
    (fun acc lv =>
      acc.bind fun score =>
        (alistGet? choices lv.1).map fun item =>
          if lv.2.truthy then score + item.checked_score
          else score + item.unchecked_score)
    (some 0)

/-- `_readjust_score` (multiple_choice.py lines 23-27) with the random draw
`d = random.randint(-8, 8)` made explicit: add `Decimal(d) / Decimal(4)` and
clamp at zero. -/
def _readjust_score (d : ℤ) (score : ℚ) : ℚ :=
  max (score + (d : ℚ) / 4) 0

/-- `_readjust_choice_item` (multiple_choice.py lines 30-31): readjust the
checked score with the first draw, the unchecked score with the second. -/
def _readjust_choice_item (d1 d2 : ℤ) (item : MultipleChoiceItem) :
    MultipleChoiceItem :=
  { checked_score := _readjust_score d1 item.checked_score,
    unchecked_score := _readjust_score d2 item.unchecked_score }

/-- The score-perturbation loop of `MultipleChoiceQuestion.readjust_scores`
(multiple_choice.py lines 155-158), from choice position `i` on: every
choice is replaced by its readjusted item; the choice at position `i`
consumes draws `2i` and `2i + 1`. -/
def readjustScoresFrom (draws : Nat → ℤ) (i : Nat) :
    List (String × MultipleChoiceItem) → List (String × MultipleChoiceItem)
  | [] => []
  | kv :: rest =>
    (kv.1, _readjust_choice_item (draws (2 * i)) (draws (2 * i + 1)) kv.2) ::
      readjustScoresFrom draws (i + 1) rest

/-- The full perturbation loop of `readjust_scores`. -/
def readjust_scores (draws : Nat → ℤ)
    (choices : List (String × MultipleChoiceItem)) :
    List (String × MultipleChoiceItem) :=
  readjustScoresFrom draws 0 choices

/-! ## Readjustment recomputation
(`Run._apply_readjustment`, batch.py lines 384-413)

The UI perturbation loop (lines 337-379) runs in the browser; its effect is
the set `modified` of modified question titles together with the questions'
new choice weights, which parameterize the embedding.  What is embedded is
the offline recomputation: per modified question, collect each user's
originally recorded answers from their result, recompute the score with the
harness's own scoring function, write it (trimmed) at every score key; then
recompute every result's total. -/

/-- One step of the answer-collection loop (batch.py lines 392-395): a key
`("question", title, "answer", dimension, ...)` contributes its value to the
`answers` dict under `key[3]`; everything else is skipped. -/
def collectStep (qtitle : String) (acc : List (String × Value))
    (kv : Key × Value) : List (String × Value) :=
  match kv.1 with
  | "question" :: t :: "answer" :: dim :: _ =>
    if t = qtitle then dictInsert acc dim kv.2 else acc
  | _ => acc

/-- The answer-collection loop (batch.py lines 391-395): the user's
originally recorded answers for one question title. -/
def collectAnswers (props : List (Key × Value)) (qtitle : String) :
    List (String × Value) :=
  props.foldl (collectStep qtitle) []

/-- Recompute one user's score for one modified question (batch.py lines
390-404): collect the answers recorded under the question's title,
`score = question.compute_score(answers, context)`, trim `str(score)`, and
`result.update(key, score)` for every score key of that title.  `title` is
the questions-dict key `question_title`; `choices` the question's
(readjusted) choice weights. -/
def recomputeQuestion (title : String)
    (choices : List (String × MultipleChoiceItem)) (r : Result) :
    Option Result :=
  (compute_score choices (collectAnswers r.properties title)).map
    fun score =>
      (Result.score_keys title).foldl
        (fun r' key => r'.update key (Value.str (canonScore score))) r

/-- The numeric value of a stored score, as `Decimal(value)` reads it
(Python `bool` is an `int`, so a boolean reads as 0 or 1). -/
def valueToDec? : Value → Option ℚ
  | Value.str s => parseDec? s.data
  | Value.bool b => some (if b then 1 else 0)

/-- The total-score accumulation of `Run._apply_readjustment` (lines
407-410): `score = Decimal(0)`, then `score += Decimal(value)` for every
per-question score value of the result. -/
def sumScores (r : Result) : Option ℚ :=
  r.scores.foldl (fun acc v => acc.bind fun s => (valueToDec? v).map (s + ·))
    (some 0)

/-- Recompute one result's total (batch.py lines 407-413): sum the
per-question scores, trim, and write the value at
`("exam", "score", "total")` and `("exam", "score", "gui")`. -/
def recomputeTotals (r : Result) : Option Result :=
  (sumScores r).map fun total =>
    (r.update ["exam", "score", "total"] (Value.str (canonScore total))).update
      ["exam", "score", "gui"] (Value.str (canonScore total))

/-- The inner `for user, result in zip(...)` loop applied over all results:
every user's result is transformed in order, and a Python exception in any
of them (`none`) aborts the whole readjustment. -/
def mapResults (f : Result → Option Result) : List Result →
    Option (List Result)
  | [] => some []
  | r :: rest => (f r).bind fun r' => (mapResults f rest).map fun rs => r' :: rs

/-- The recomputation part of `Run._apply_readjustment` (batch.py lines
384-413): for every question whose title was modified, recompute every
user's score for it; then recompute every user's total.  `none` models a
propagated Python exception (e.g. `KeyError` in `compute_score`). -/
def _apply_readjustment
    (questions : List (String × List (String × MultipleChoiceItem)))
    (modified : List String) (results : List Result) :
    Option (List Result) :=
  (questions.foldl
      (fun acc tq =>
        acc.bind fun rs =>
          if tq.1 ∈ modified then mapResults (recomputeQuestion tq.1 tq.2) rs
          else some rs)
      (some results)).bind
    fun rs => mapResults recomputeTotals rs

/-- The per-result restriction of the readjustment's question loop: the
sequence of per-question recomputations one user's result undergoes. -/
def applyPerResult
    (questions : List (String × List (String × MultipleChoiceItem)))
    (modified : List String) (r : Result) : Option Result :=
  questions.foldl
    (fun acc tq =>
      acc.bind fun r' =>
        if tq.1 ∈ modified then recomputeQuestion tq.1 tq.2 r' else some r')
    (some r)

/-- A well-behaved stored score value: non-negative with at most twenty
decimal places — every score the harness writes (quarter-grid weights and
their sums, rendered in fixed point) satisfies this. -/
def DecVal (x : ℚ) : Prop :=
  0 ≤ x ∧ ((10 : ℚ) ^ 20 * x).den = 1

/-! ## The cross-worker poll mutex (batch.py lines 49, 77-102)

One iteration of the polling loop runs, in order: `monitor_mutex.acquire()`,
`time.sleep(1)`, issuing `requests.get(...)` and receiving its response,
`monitor_mutex.release()` (the `try/finally` of lines 80-85).  The loop is
embedded as its sequence of lock-relevant events; the poll request is split
into its start and its completion so that "a poll is outstanding" has an
extent. -/

inductive LockEvent where
  | acquire
  | sleep
  | requestBegin
  | requestEnd
  | release
deriving DecidableEq, Repr

/-- The events of one iteration of the `while result_json is None` loop
(batch.py lines 80-85): the sleep and the whole poll request happen between
`acquire` and `release`. -/
def pollIterationEvents : List LockEvent :=
  [LockEvent.acquire, LockEvent.sleep, LockEvent.requestBegin,
   LockEvent.requestEnd, LockEvent.release]

/-- The event trace of `n` iterations of one dispatch's polling loop. -/
def pollLoopEvents : Nat → List LockEvent
  | 0 => []
  | n + 1 => pollIterationEvents ++ pollLoopEvents n

/-- Lock depth transition of one event (for a single worker's trace): how
many unmatched `acquire`s are outstanding. -/
def depthStep (d : Nat) : LockEvent → Nat
  | LockEvent.acquire => d + 1
  | LockEvent.release => d - 1
  | _ => d

/-- The lock depth immediately before the `i`-th event of a trace. -/
def depthBefore (trace : List LockEvent) (i : Nat) : Nat :=
  (trace.take i).foldl depthStep 0

/-- How many poll requests the first `i` events leave in flight
(`requestBegin`s minus `requestEnd`s). -/
def inFlightStep (d : Nat) : LockEvent → Nat
  | LockEvent.requestBegin => d + 1
  | LockEvent.requestEnd => d - 1
  | _ => d

/-- The number of in-flight poll requests immediately before the `i`-th
event of a trace. -/
def inFlightBefore (trace : List LockEvent) (i : Nat) : Nat :=
  (trace.take i).foldl inFlightStep 0

/-- Concurrent execution of `k` dispatch polling loops under the mutex:
a state assigns each worker its position in its own trace; a worker may
execute its next event, and `acquire` is enabled only while no worker holds
the mutex (every worker's depth is zero). -/
def workerDepth (iters : Nat) (p : Nat) : Nat :=
  depthBefore (pollLoopEvents iters) p

/-- One interleaving step: worker `w` executes the next event of its trace;
`acquire` waits until the mutex is free. -/
inductive MutexStep (k : Nat) (iters : Fin k → Nat) :
    (Fin k → Nat) → (Fin k → Nat) → Prop
  | exec (pos : Fin k → Nat) (w : Fin k) (e : LockEvent)
      (hev : (pollLoopEvents (iters w)).get? (pos w) = some e)
      (hacq : e = LockEvent.acquire → ∀ w', workerDepth (iters w') (pos w') = 0) :
      MutexStep k iters pos (Function.update pos w (pos w + 1))

/-- Reachability from the initial state (every worker at position 0). -/
def MutexReachable (k : Nat) (iters : Fin k → Nat) (pos : Fin k → Nat) : Prop :=
  Relation.ReflTransGen (MutexStep k iters) (fun _ => 0) pos

/-! ## Observability sink (`Batch`, batch.py lines 684-848)

A socket is its list of received messages; `buffered` holds the messages not
yet delivered to any socket; `report_done` records the success code and
broadcasts the terminal done event. -/

/-- A message written to an observer socket (the JSON payloads of §6). -/
inductive ObsMsg where
  | report (origin message : String)
  | done (success : String)
deriving DecidableEq, Repr

/-- The observer-facing state of a `Batch`. -/
structure BatchState where
  sockets : List (List ObsMsg) := []
  buffered : List ObsMsg := []
  isDone : Bool := false
  success : Option SuccessCode := Option.none
deriving DecidableEq, Repr

/-- `Batch.flush` (lines 814-825): if there are sockets, write every
buffered message to every socket and clear the buffer (delivery is
best-effort; the embedding takes every delivery to succeed). -/
def BatchState.flush (s : BatchState) : BatchState :=
  if s.sockets.isEmpty then s
  else
    { s with sockets := s.sockets.map (· ++ s.buffered), buffered := [] }

/-- `Batch.report` (lines 795-812): append the encoded report message to the
buffer and flush. -/
def BatchState.report (s : BatchState) (origin message : String) : BatchState :=
  BatchState.flush { s with buffered := s.buffered ++ [ObsMsg.report origin message] }

/-- `Batch.report_done` (lines 838-848): set `_is_done` and `_success`,
flush, then write the done event — `success` run through `encode_success` —
to every socket. -/
def BatchState.report_done (s : BatchState) (success : SuccessCode) : BatchState :=
  let s' := BatchState.flush { s with isDone := true, success := some success }
  { s' with
      sockets := s'.sockets.map (· ++ [ObsMsg.done (encode_success success)]) }

/-- `Batch.add_socket` (lines 827-832): append the new socket, flush the
backlog to it, and — verbatim from the code — if the run is done, call
`self.report_done("UNKNOWN")` with the plain string `"UNKNOWN"`. -/
def BatchState.add_socket (s : BatchState) : BatchState :=
  let s' := BatchState.flush { s with sockets := s.sockets ++ [[]] }
  if s'.isDone then BatchState.report_done s' (SuccessCode.raw "UNKNOWN") else s'

/-! # Theorems settling the claims -/

/-- Every choice item emitted by the perturbation loop has non-negative
scores: both components come out of `_readjust_score`'s clamp. -/
theorem readjustScoresFrom_nonneg (draws : Nat → ℤ)
    (choices : List (String × MultipleChoiceItem)) :
    ∀ (i : Nat) (kv : String × MultipleChoiceItem),
      kv ∈ readjustScoresFrom draws i choices →
      0 ≤ kv.2.checked_score ∧ 0 ≤ kv.2.unchecked_score := by
  induction choices with
  | nil => intro i kv h; simp [readjustScoresFrom] at h
  | cons c rest ih =>
    intro i kv h
    simp only [readjustScoresFrom, List.mem_cons] at h
    rcases h with h | h
    · subst h
      exact ⟨le_max_right _ _, le_max_right _ _⟩
    · exact ih (i + 1) kv h

/-- C10: every score produced by the readjustment perturbation is clamped at
zero: for every initial score and every random draw `d` in `[-8, 8]` (delta
`d/4` in `[-2, 2]` in quarter steps), `_readjust_score` returns
`max(score + delta, 0)`, and after `readjust_scores` no choice's checked or
unchecked score is negative. -/
theorem c10_readjust_score_clamped :
    (∀ (d : ℤ) (s : ℚ), -8 ≤ d → d ≤ 8 →
        _readjust_score d s = max (s + (d : ℚ) / 4) 0 ∧
          0 ≤ _readjust_score d s) ∧
    ∀ (draws : Nat → ℤ) (choices : List (String × MultipleChoiceItem))
      (kv : String × MultipleChoiceItem), kv ∈ readjust_scores draws choices →
        0 ≤ kv.2.checked_score ∧ 0 ≤ kv.2.unchecked_score := by
  refine ⟨fun d s _ _ => ⟨rfl, le_max_right _ _⟩, ?_⟩
  intro draws choices kv h
  exact readjustScoresFrom_nonneg draws choices 0 kv h

/-- Witness for C10 at a concrete draw and choice list. -/
theorem c10_witness :
    (_readjust_score (-8) 1 = max ((1 : ℚ) + ((-8 : ℤ) : ℚ) / 4) 0 ∧
       0 ≤ _readjust_score (-8) 1) ∧
    (0 ≤ (_readjust_choice_item (-8) (-8) ⟨1, 0⟩).checked_score ∧
       0 ≤ (_readjust_choice_item (-8) (-8) ⟨1, 0⟩).unchecked_score) :=
  ⟨c10_readjust_score_clamped.1 (-8) 1 (by norm_num) (by norm_num),
   c10_readjust_score_clamped.2 (fun _ => -8) [("a", ⟨1, 0⟩)]
     ("a", _readjust_choice_item (-8) (-8) ⟨1, 0⟩)
     (by simp [readjust_scores, readjustScoresFrom])⟩

/-- `run_exams` with every dispatch terminating yields one result per
worker. -/
theorem run_exams_all_some (scripts : List Script)
    (hterm : ∀ s ∈ scripts, (take_exam s).isSome) :
    ∃ rs : List Result, run_exams scripts = rs.map some ∧
      rs.length = scripts.length := by
  induction scripts with
  | nil => exact ⟨[], rfl, rfl⟩
  | cons s ss ih =>
    obtain ⟨r, hr⟩ := Option.isSome_iff_exists.mp (hterm s (by simp))
    obtain ⟨rs, h1, h2⟩ := ih (fun t ht => hterm t (by simp [ht]))
    refine ⟨r :: rs, ?_, by simp [h2]⟩
    simp only [run_exams, List.map_cons] at h1 ⊢
    rw [hr, h1]

/-- C6: for every non-empty worker allocation whose dispatches all
terminate, the dispatch phase returns exactly one `Result` per worker —
failed dispatches included, since they still yield a synthetic failed
result. -/
theorem c6_one_result_per_worker (scripts : List Script)
    (hne : scripts ≠ [])
    (hterm : ∀ s ∈ scripts, (take_exam s).isSome) :
    ∃ rs : List Result, run_exams scripts = rs.map some ∧
      rs.length = scripts.length :=
  run_exams_all_some scripts hterm

/-- Witness for C6: two workers, one delivering `DONE`, one whose start call
fails — still exactly two results. -/
theorem c6_witness :
    ∃ rs : List Result,
      run_exams [⟨StartResp.status 200, [PollResp.status 200 [("DONE", "r")]]⟩,
                 ⟨StartResp.connError, []⟩] = rs.map some ∧
      rs.length = 2 :=
  c6_one_result_per_worker _ (by simp) (by decide)

/-- The message loop only raises the plain `Exception` (for `ERROR`) or an
`InteractionException` (for an unknown command). -/
theorem processMessages_error_cases (msgs : List (String × String)) :
    ∀ (acc : Option String) (e : PyErr),
      (processMessages msgs acc).2 = Except.error e →
      e = PyErr.other ∨ e = PyErr.tiltr ErrorDomain.interaction := by
  induction msgs with
  | nil => intro acc e h; simp [processMessages] at h
  | cons cp rest ih =>
    obtain ⟨c, p⟩ := cp
    intro acc e h
    simp only [processMessages] at h
    split_ifs at h
    · exact ih acc e h
    · exact ih (some p) e h
    · exact Or.inl (Except.error.inj h).symm
    · exact Or.inr (Except.error.inj h).symm

/-- The polling loop only ends in one of the three exception classes the
handlers of `take_exam` distinguish. -/
theorem pollLoop_error_cases (polls : List PollResp) :
    ∀ (i : Nat) (e : PyErr),
      (pollLoop polls i).2.2 = some (Except.error e) →
      e = PyErr.tiltr ErrorDomain.interaction ∨ e = PyErr.connError ∨
        e = PyErr.other := by
  induction polls with
  | nil => intro i e h; simp [pollLoop] at h
  | cons poll rest ih =>
    intro i e h
    cases poll with
    | connError =>
      simp only [pollLoop, Option.some.injEq] at h
      exact Or.inr (Or.inl (Except.error.inj h).symm)
    | status code messages =>
      simp only [pollLoop] at h
      split_ifs at h with hc
      · exact Or.inl (Except.error.inj (Option.some.inj h)).symm
      · cases hm : (processMessages messages Option.none).2 with
        | error e' =>
          rw [hm] at h
          simp only [Option.some.injEq] at h
          rcases processMessages_error_cases messages Option.none e'
              (by rw [hm]) with h' | h' <;>
            simp [← (Except.error.inj h), h']
        | ok res =>
          rw [hm] at h
          cases res with
          | none => exact ih (i + messages.length) e h
          | some payload => simp at h

/-- C2: every failure inside one dispatch — refused/reset connection,
non-success HTTP status on the start or the monitor call, or any exception
raised while processing messages — is caught at the dispatch boundary and
converted to a synthetic failed `Result` carrying an error domain; no
exception propagates to the caller. -/
theorem c2_dispatch_failures_contained (script : Script) :
    (∀ r, take_exam script = some r →
        r.errorDomain = ErrorDomain.none ∨
          r = Result.from_error Origin.recorded r.errorDomain "tb") ∧
    (script.start = StartResp.connError →
        take_exam script =
          some (Result.from_error Origin.recorded ErrorDomain.interaction "tb")) ∧
    (∀ c, script.start = StartResp.status c → c ≠ 200 →
        take_exam script =
          some (Result.from_error Origin.recorded ErrorDomain.interaction "tb")) ∧
    (∀ e, script.start = StartResp.status 200 →
        (pollLoop script.polls 0).2.2 = some (Except.error e) →
        take_exam script =
            some (Result.from_error Origin.recorded (pyErrDomain e) "tb") ∧
          pyErrDomain e ≠ ErrorDomain.none) := by
  obtain ⟨start, polls⟩ := script
  refine ⟨?_, ?_, ?_, ?_⟩
  · intro r hr
    cases start with
    | connError =>
      rw [(Option.some.inj hr).symm]
      exact Or.inr rfl
    | status code =>
      by_cases h200 : code = 200
      · subst h200
        simp only [take_exam, ne_eq, not_true_eq_false, if_false] at hr
        cases hout : (pollLoop polls 0).2.2 with
        | none => rw [hout] at hr; simp at hr
        | some exc =>
          rw [hout] at hr
          cases exc with
          | ok payload =>
            simp only [Option.some.injEq] at hr
            exact Or.inl (by rw [← hr]; rfl)
          | error e =>
            cases e with
            | tiltr d => rw [(Option.some.inj hr).symm]; exact Or.inr rfl
            | connError => rw [(Option.some.inj hr).symm]; exact Or.inr rfl
            | other => rw [(Option.some.inj hr).symm]; exact Or.inr rfl
      · simp only [take_exam, ne_eq, h200, not_false_eq_true, if_true] at hr
        rw [(Option.some.inj hr).symm]
        exact Or.inr rfl
  · intro h; subst h; rfl
  · intro c hc h200; subst hc
    simp [take_exam, h200]
  · intro e hstart herr
    subst hstart
    constructor
    · simp only [take_exam, ne_eq, not_true_eq_false, if_false]
      rw [herr]
      cases e with
      | tiltr d => rfl
      | connError => rfl
      | other => rfl
    · rcases pollLoop_error_cases polls 0 e herr with h | h | h <;>
        simp [h, pyErrDomain]

/-- Witness for C2: a refused start connection, a non-200 start status, and
an `ERROR` message all yield synthetic failed results. -/
theorem c2_witness :
    take_exam ⟨StartResp.connError, []⟩ =
        some (Result.from_error Origin.recorded ErrorDomain.interaction "tb") ∧
      take_exam ⟨StartResp.status 500, []⟩ =
        some (Result.from_error Origin.recorded ErrorDomain.interaction "tb") ∧
      (take_exam ⟨StartResp.status 200,
          [PollResp.status 200 [("ERROR", "session expired")]]⟩ =
          some (Result.from_error Origin.recorded (pyErrDomain PyErr.other) "tb") ∧
        pyErrDomain PyErr.other ≠ ErrorDomain.none) :=
  ⟨(c2_dispatch_failures_contained ⟨StartResp.connError, []⟩).2.1 rfl,
   (c2_dispatch_failures_contained ⟨StartResp.status 500, []⟩).2.2.1 500 rfl
     (by decide),
   (c2_dispatch_failures_contained ⟨StartResp.status 200,
       [PollResp.status 200 [("ERROR", "session expired")]]⟩).2.2.2
     PyErr.other rfl rfl⟩

/-- The verification loop returns either `"OK"` or `"FAIL"`. -/
theorem verifyRounds_eq_or (checkOk : Nat → Bool) :
    ∀ (remaining round : Nat),
      verifyRounds checkOk round remaining = "OK" ∨
        verifyRounds checkOk round remaining = "FAIL" := by
  intro remaining
  induction remaining with
  | zero =>
    intro round
    cases h : checkOk round <;>
      simp [verifyRounds, h, verify_reimport]
  | succ r ih =>
    intro round
    cases h : checkOk round with
    | false => simp [verifyRounds, h]
    | true =>
      simpa [verifyRounds, h] using ih (round + 1)

/-- The verification loop passes exactly when every round from `round` to
`round + remaining` reports zero mismatches. -/
theorem verifyRounds_ok_iff (checkOk : Nat → Bool) :
    ∀ (remaining round : Nat),
      verifyRounds checkOk round remaining = "OK" ↔
        ∀ j, j ≤ remaining → checkOk (round + j) = true := by
  intro remaining
  induction remaining with
  | zero =>
    intro round
    cases h : checkOk round with
    | false =>
      simp only [verifyRounds, h]
      constructor
      · intro hcontra; simp at hcontra
      · intro hall
        have := hall 0 (le_refl 0)
        simp [h] at this
    | true =>
      simp only [verifyRounds, h, verify_reimport]
      constructor
      · intro _ j hj
        interval_cases j
        simpa using h
      · intro _; simp
  | succ r ih =>
    intro round
    cases h : checkOk round with
    | false =>
      simp only [verifyRounds, h]
      constructor
      · intro hcontra; simp at hcontra
      · intro hall
        have := hall 0 (Nat.zero_le _)
        simp [h] at this
    | true =>
      have hstep : verifyRounds checkOk round (r + 1) =
          verifyRounds checkOk (round + 1) r := by
        simp [verifyRounds, h]
      rw [hstep, ih (round + 1)]
      constructor
      · intro hall j hj
        cases j with
        | zero => simpa using h
        | succ j' =>
          have := hall j' (by omega)
          simpa [Nat.add_assoc, Nat.add_comm 1 j'] using this
      · intro hall j hj
        have := hall (j + 1) (by omega)
        simpa [Nat.add_assoc, Nat.add_comm j 1] using this

/-- C1: with no per-worker errors, the Run's final verdict is `OK` exactly
when every verification round of the Export&Verify loop finds zero
mismatches, and `FAIL/integrity` exactly when some round finds at least one
mismatch — regardless of what later rounds would report, since the loop
breaks at the first failing round. -/
theorem c1_final_verdict (results : List Result) (num : Nat)
    (checkOk : Nat → Bool)
    (hnoerr : get_most_severe_error results = ErrorDomain.none) :
    (run_success results num checkOk = ["OK"] ↔
        ∀ k, k ≤ num → checkOk k = true) ∧
    (run_success results num checkOk = ["FAIL", "integrity"] ↔
        ∃ k, k ≤ num ∧ checkOk k = false) := by
  have hok : verify_xls num checkOk = "OK" ↔
      ∀ k, k ≤ num → checkOk k = true := by
    rw [verify_xls, verifyRounds_ok_iff]
    constructor
    · intro hall k hk; simpa using hall k hk
    · intro hall j hj; simpa using hall j hj
  have hrs : run_success results num checkOk =
      if verify_xls num checkOk = "OK" then ["OK"]
      else ["FAIL", "integrity"] := by
    rw [run_success, analyze, hnoerr]
    by_cases hv : verify_xls num checkOk = "OK"
    · simp [hv, ErrorDomain.value]
    · simp [hv, ErrorDomain.value, ErrorDomain.name]
  rcases verifyRounds_eq_or checkOk num 0 with h | h
  · have hxls : verify_xls num checkOk = "OK" := h
    rw [hrs, if_pos hxls]
    constructor
    · simp only [true_iff]
      exact hok.mp hxls
    · constructor
      · intro hcontra; simp at hcontra
      · rintro ⟨k, hk, hfalse⟩
        have := hok.mp hxls k hk
        rw [this] at hfalse
        cases hfalse
  · have hxls : verify_xls num checkOk = "FAIL" := h
    have hne : ¬ verify_xls num checkOk = "OK" := by simp [hxls]
    rw [hrs, if_neg hne]
    constructor
    · constructor
      · intro hcontra; simp at hcontra
      · intro hall
        exact absurd (hok.mpr hall) hne
    · simp only [true_iff]
      by_contra hnone
      push_neg at hnone
      exact hne (hok.mpr (fun k hk => by
        have := hnone k hk
        cases hcase : checkOk k with
        | true => rfl
        | false => exact absurd hcase this))

/-- Witness for C1: one readjustment round, round 1 failing, no worker
errors — both characterizations hold at the instance. -/
theorem c1_witness :
    (run_success [] 1 (fun k => k == 0) = ["OK"] ↔
        ∀ k, k ≤ 1 → (k == 0) = true) ∧
    (run_success [] 1 (fun k => k == 0) = ["FAIL", "integrity"] ↔
        ∃ k, k ≤ 1 ∧ (k == 0) = false) :=
  c1_final_verdict [] 1 (fun k => k == 0) rfl

/-- Whenever the polling loop issues at least one poll, the first poll is
issued at the cursor value it was started with. -/
theorem pollLoop_head (polls : List PollResp) (i : Nat) (hne : polls ≠ []) :
    (pollLoop polls i).1.head? = some i := by
  cases polls with
  | nil => exact absurd rfl hne
  | cons poll rest =>
    cases poll with
    | connError => rfl
    | status code messages =>
      by_cases hc : code = 200
      · subst hc
        simp only [pollLoop, ne_eq, not_true_eq_false, if_false]
        cases hm : (processMessages messages Option.none).2 with
        | error e => rfl
        | ok res => cases res <;> rfl
      · simp [pollLoop, hc]

/-- After each poll the cursor advances by exactly the number of messages
that poll returned. -/
theorem pollLoop_step (polls : List PollResp) :
    ∀ (i j : Nat) (p : PollResp) (c₁ c₂ : Nat),
      polls.get? j = some p →
      (pollLoop polls i).1.get? j = some c₁ →
      (pollLoop polls i).1.get? (j + 1) = some c₂ →
      c₂ = c₁ + p.numMessages := by
  induction polls with
  | nil => intro i j p c₁ c₂ hp _ _; simp at hp
  | cons poll rest ih =>
    intro i j p c₁ c₂ hp h1 h2
    cases poll with
    | connError =>
      simp only [pollLoop] at h2
      rcases j with _ | j' <;> simp at h2
    | status code messages =>
      by_cases hc : code = 200
      · subst hc
        simp only [pollLoop, ne_eq, not_true_eq_false, if_false] at h1 h2
        cases hm : (processMessages messages Option.none).2 with
        | error e =>
          rw [hm] at h2
          rcases j with _ | j' <;> simp at h2
        | ok res =>
          rw [hm] at h1 h2
          cases res with
          | some payload =>
            rcases j with _ | j' <;> simp at h2
          | none =>
            cases j with
            | zero =>
              simp only [List.get?_cons_zero, Option.some.injEq] at h1 hp
              have hne : (pollLoop rest (i + messages.length)).1 ≠ [] := by
                intro hnil
                simp only [List.get?_cons_succ, hnil] at h2
                simp at h2
              have hrest : rest ≠ [] := by
                intro hnil
                subst hnil
                simp [pollLoop] at hne
              have hhead := pollLoop_head rest (i + messages.length) hrest
              simp only [List.get?_cons_succ] at h2
              rw [List.get?_zero, hhead] at h2
              rw [← h1, ← hp]
              simp only [Option.some.injEq] at h2
              rw [← h2]
              rfl
            | succ j' =>
              simp only [List.get?_cons_succ] at h1 h2 hp
              exact ih (i + messages.length) j' p c₁ c₂ hp h1 h2
      · simp only [pollLoop, ne_eq, hc, not_false_eq_true, if_true] at h2
        rcases j with _ | j' <;> simp at h2

/-- The cursor values of a polling loop are non-decreasing. -/
theorem pollLoop_chain (polls : List PollResp) :
    ∀ i : Nat, List.Chain' (· ≤ ·) (pollLoop polls i).1 := by
  induction polls with
  | nil => intro i; simp [pollLoop]
  | cons poll rest ih =>
    intro i
    cases poll with
    | connError => simp [pollLoop]
    | status code messages =>
      by_cases hc : code = 200
      · subst hc
        simp only [pollLoop, ne_eq, not_true_eq_false, if_false]
        cases hm : (processMessages messages Option.none).2 with
        | error e => simp
        | ok res =>
          cases res with
          | some payload => simp
          | none =>
            rw [List.chain'_cons']
            refine ⟨?_, ih (i + messages.length)⟩
            intro y hy
            cases hrest : rest with
            | nil => subst hrest; simp [pollLoop] at hy
            | cons q qs =>
              rw [pollLoop_head rest (i + messages.length)
                (by rw [hrest]; simp)] at hy
              simp only [Option.mem_def, Option.some.injEq] at hy
              omega
      · simp [pollLoop, hc]

/-- C4: in every dispatch's polling loop the cursor starts at 0, is
monotonically non-decreasing, and advances after each poll by exactly the
number of messages that poll returned; replaying identical server responses
yields identical cursors and an identical delivered-message sequence. -/
theorem c4_poll_cursor (script : Script) :
    (script.polls ≠ [] → (cursorTrace script).head? = some 0) ∧
    List.Sorted (· ≤ ·) (cursorTrace script) ∧
    (∀ (j : Nat) (p : PollResp) (c₁ c₂ : Nat),
        script.polls.get? j = some p →
        (cursorTrace script).get? j = some c₁ →
        (cursorTrace script).get? (j + 1) = some c₂ →
        c₂ = c₁ + p.numMessages) ∧
    (∀ script' : Script, script.polls = script'.polls →
        deliveredEchoes script = deliveredEchoes script' ∧
          cursorTrace script = cursorTrace script') := by
  refine ⟨?_, ?_, ?_, ?_⟩
  · intro hne
    exact pollLoop_head script.polls 0 hne
  · rw [List.Sorted, ← List.chain'_iff_pairwise]
    exact pollLoop_chain script.polls 0
  · intro j p c₁ c₂ hp h1 h2
    exact pollLoop_step script.polls 0 j p c₁ c₂ hp h1 h2
  · intro script' hpolls
    constructor
    · rw [deliveredEchoes, deliveredEchoes, hpolls]
    · rw [cursorTrace, cursorTrace, hpolls]

/-- Witness for C4 at a concrete two-poll script: first cursor 0, second
cursor `0 + 2` after a two-message poll. -/
theorem c4_witness :
    (cursorTrace ⟨StartResp.status 200,
        [PollResp.status 200 [("ECHO", "a"), ("ECHO", "b")],
         PollResp.status 200 [("DONE", "r")]]⟩).head? = some 0 ∧
    2 = 0 + (PollResp.status 200 [("ECHO", "a"), ("ECHO", "b")]).numMessages :=
  ⟨(c4_poll_cursor _).1 (by simp),
   (c4_poll_cursor ⟨StartResp.status 200,
       [PollResp.status 200 [("ECHO", "a"), ("ECHO", "b")],
        PollResp.status 200 [("DONE", "r")]]⟩).2.2.1 0
     (PollResp.status 200 [("ECHO", "a"), ("ECHO", "b")]) 0 2 rfl rfl rfl⟩

/-- The lock depth after one more event steps by that event. -/
theorem depthBefore_succ (t : List LockEvent) (i : Nat) (e : LockEvent)
    (h : t.get? i = some e) :
    depthBefore t (i + 1) = depthStep (depthBefore t i) e := by
  have h' : t[i]? = some e := by rw [← List.get?_eq_getElem?]; exact h
  rw [depthBefore, depthBefore, List.take_succ, List.foldl_append, h']
  rfl

/-- The in-flight count after one more event steps by that event. -/
theorem inFlightBefore_succ (t : List LockEvent) (i : Nat) (e : LockEvent)
    (h : t.get? i = some e) :
    inFlightBefore t (i + 1) = inFlightStep (inFlightBefore t i) e := by
  have h' : t[i]? = some e := by rw [← List.get?_eq_getElem?]; exact h
  rw [inFlightBefore, inFlightBefore, List.take_succ, List.foldl_append, h']
  rfl

/-- A polling-loop trace has five events per iteration. -/
theorem pollLoopEvents_length (n : Nat) :
    (pollLoopEvents n).length = 5 * n := by
  induction n with
  | zero => rfl
  | succ m ih => simp [pollLoopEvents, pollIterationEvents, ih]; omega

/-- Structural facts about one polling loop's trace: the lock depth never
exceeds 1, `acquire` only happens with the lock free, the sleep and the poll
request only happen with the lock held, past the trace the depth is 0, and
at most as many polls are in flight as locks are held. -/
theorem pollTrace_facts (n : Nat) : ∀ i : Nat,
    depthBefore (pollLoopEvents n) i ≤ 1 ∧
    ((pollLoopEvents n).get? i = some LockEvent.acquire →
        depthBefore (pollLoopEvents n) i = 0) ∧
    ((pollLoopEvents n).get? i = some LockEvent.sleep →
        depthBefore (pollLoopEvents n) i = 1) ∧
    ((pollLoopEvents n).get? i = some LockEvent.requestBegin →
        depthBefore (pollLoopEvents n) i = 1) ∧
    (5 * n ≤ i → depthBefore (pollLoopEvents n) i = 0) ∧
    inFlightBefore (pollLoopEvents n) i ≤ depthBefore (pollLoopEvents n) i := by
  induction n with
  | zero =>
    intro i
    refine ⟨?_, ?_, ?_, ?_, ?_, ?_⟩ <;>
      simp [pollLoopEvents, depthBefore, inFlightBefore]
  | succ m ih =>
    intro i
    rcases Nat.lt_or_ge i 5 with h5 | h5
    · have e0 : depthBefore (pollLoopEvents (m + 1)) 0 = 0 := rfl
      have e1 : depthBefore (pollLoopEvents (m + 1)) 1 = 1 := rfl
      have e2 : depthBefore (pollLoopEvents (m + 1)) 2 = 1 := rfl
      have e3 : depthBefore (pollLoopEvents (m + 1)) 3 = 1 := rfl
      have e4 : depthBefore (pollLoopEvents (m + 1)) 4 = 1 := rfl
      have f0 : inFlightBefore (pollLoopEvents (m + 1)) 0 = 0 := rfl
      have f1 : inFlightBefore (pollLoopEvents (m + 1)) 1 = 0 := rfl
      have f2 : inFlightBefore (pollLoopEvents (m + 1)) 2 = 0 := rfl
      have f3 : inFlightBefore (pollLoopEvents (m + 1)) 3 = 1 := rfl
      have f4 : inFlightBefore (pollLoopEvents (m + 1)) 4 = 0 := rfl
      have g0 : (pollLoopEvents (m + 1)).get? 0 = some LockEvent.acquire := rfl
      have g1 : (pollLoopEvents (m + 1)).get? 1 = some LockEvent.sleep := rfl
      have g2 : (pollLoopEvents (m + 1)).get? 2 =
        some LockEvent.requestBegin := rfl
      have g3 : (pollLoopEvents (m + 1)).get? 3 =
        some LockEvent.requestEnd := rfl
      have g4 : (pollLoopEvents (m + 1)).get? 4 = some LockEvent.release := rfl
      interval_cases i
      · exact ⟨by simp [e0], fun _ => e0,
          by intro h; rw [g0] at h; simp at h,
          by intro h; rw [g0] at h; simp at h,
          by omega, by simp [e0, f0]⟩
      · exact ⟨by simp [e1],
          by intro h; rw [g1] at h; simp at h,
          fun _ => e1,
          by intro h; rw [g1] at h; simp at h,
          by omega, by simp [e1, f1]⟩
      · exact ⟨by simp [e2],
          by intro h; rw [g2] at h; simp at h,
          by intro h; rw [g2] at h; simp at h,
          fun _ => e2,
          by omega, by simp [e2, f2]⟩
      · exact ⟨by simp [e3],
          by intro h; rw [g3] at h; simp at h,
          by intro h; rw [g3] at h; simp at h,
          by intro h; rw [g3] at h; simp at h,
          by omega, by simp [e3, f3]⟩
      · exact ⟨by simp [e4],
          by intro h; rw [g4] at h; simp at h,
          by intro h; rw [g4] at h; simp at h,
          by intro h; rw [g4] at h; simp at h,
          by omega, by simp [e4, f4]⟩
    · obtain ⟨j, rfl⟩ : ∃ j, i = j + 5 := ⟨i - 5, by omega⟩
      have hdep : ∀ jj, depthBefore (pollLoopEvents (m + 1)) (jj + 5) =
          depthBefore (pollLoopEvents m) jj := by
        intro jj
        show List.foldl depthStep 0
            ((pollIterationEvents ++ pollLoopEvents m).take (jj + 5)) = _
        rw [Nat.add_comm jj 5,
          show (5 : Nat) = (pollIterationEvents).length from rfl,
          List.take_append, List.foldl_append]
        rfl
      have hinf : inFlightBefore (pollLoopEvents (m + 1)) (j + 5) =
          inFlightBefore (pollLoopEvents m) j := by
        show List.foldl inFlightStep 0
            ((pollIterationEvents ++ pollLoopEvents m).take (j + 5)) = _
        rw [Nat.add_comm j 5,
          show (5 : Nat) = (pollIterationEvents).length from rfl,
          List.take_append, List.foldl_append]
        rfl
      have hget : (pollLoopEvents (m + 1)).get? (j + 5) =
          (pollLoopEvents m).get? j := by
        show (pollIterationEvents ++ pollLoopEvents m).get? (j + 5) = _
        rw [List.get?_append_right (by simp [pollIterationEvents])]
        simp [pollIterationEvents]
      obtain ⟨f1, f2, f3, f4, f5, f6⟩ := ih j
      refine ⟨?_, ?_, ?_, ?_, ?_, ?_⟩
      · rw [hdep]; exact f1
      · rw [hget, hdep]; exact f2
      · rw [hget, hdep]; exact f3
      · rw [hget, hdep]; exact f4
      · intro hge; rw [hdep]; exact f5 (by omega)
      · rw [hdep, hinf]; exact f6

/-- Under the poll mutex, at most one worker is inside its critical section
at any reachable state. -/
theorem mutex_exclusion (k : Nat) (iters : Fin k → Nat)
    (pos : Fin k → Nat) (hreach : MutexReachable k iters pos) :
    ∀ w₁ w₂ : Fin k, 1 ≤ workerDepth (iters w₁) (pos w₁) →
      1 ≤ workerDepth (iters w₂) (pos w₂) → w₁ = w₂ := by
  induction hreach with
  | refl =>
    intro w₁ w₂ h1 _
    simp [workerDepth, depthBefore] at h1
  | @tail p pnext hsteps hstep ih =>
    cases hstep with
    | exec w e hev hacq =>
      intro w₁ w₂ h1 h2
      by_cases he : e = LockEvent.acquire
      · subst he
        have hall := hacq rfl
        have hdw : ∀ w' : Fin k, w' ≠ w →
            workerDepth (iters w') (Function.update p w (p w + 1) w') = 0 := by
          intro w' hne
          rw [Function.update_noteq hne]
          exact hall w'
        by_cases hw1 : w₁ = w
        · by_cases hw2 : w₂ = w
          · rw [hw1, hw2]
          · rw [hdw w₂ hw2] at h2; omega
        · rw [hdw w₁ hw1] at h1; omega
      · have hle : ∀ w' : Fin k,
            workerDepth (iters w') (Function.update p w (p w + 1) w') ≤
              workerDepth (iters w') (p w') := by
          intro w'
          by_cases hw : w' = w
          · subst hw
            rw [Function.update_same, workerDepth, workerDepth,
              depthBefore_succ _ _ _ hev]
            cases e <;> simp [depthStep] at he ⊢ <;> omega
          · rw [Function.update_noteq hw]
        exact ih w₁ w₂ (le_trans h1 (hle w₁)) (le_trans h2 (hle w₂))

/-- C7 counterexample: in the polling loop the inter-poll sleep happens
*while* the mutex is held — `time.sleep(1)` is inside the
`acquire`/`release` pair of lines 80-85 — so the mutex is not held only for
the duration of issuing the poll request. -/
theorem c7_counterexample :
    (pollLoopEvents 1).get? 1 = some LockEvent.sleep ∧
      depthBefore (pollLoopEvents 1) 1 = 1 ∧ (1 : Nat) ≠ 0 :=
  ⟨rfl, rfl, one_ne_zero⟩

/-- C7 (amended): the poll mutex is held across the inter-poll sleep *and*
the poll request; it is acquired only with the lock free and fully released
by the end of each iteration, so the loop cannot self-deadlock; and since a
poll can only be in flight while its worker holds the mutex, at most one
status poll is outstanding at any time regardless of worker count. -/
theorem c7_mutex_discipline :
    (∀ n i : Nat,
      ((pollLoopEvents n).get? i = some LockEvent.sleep →
          depthBefore (pollLoopEvents n) i = 1) ∧
      ((pollLoopEvents n).get? i = some LockEvent.requestBegin →
          depthBefore (pollLoopEvents n) i = 1) ∧
      ((pollLoopEvents n).get? i = some LockEvent.acquire →
          depthBefore (pollLoopEvents n) i = 0) ∧
      depthBefore (pollLoopEvents n) (pollLoopEvents n).length = 0) ∧
    (∀ (k : Nat) (iters : Fin k → Nat) (pos : Fin k → Nat),
      MutexReachable k iters pos →
      ∀ w₁ w₂ : Fin k,
        1 ≤ inFlightBefore (pollLoopEvents (iters w₁)) (pos w₁) →
        1 ≤ inFlightBefore (pollLoopEvents (iters w₂)) (pos w₂) →
        w₁ = w₂) := by
  constructor
  · intro n i
    obtain ⟨_, f2, f3, f4, f5, _⟩ := pollTrace_facts n i
    exact ⟨f3, f4, f2, (pollTrace_facts n (pollLoopEvents n).length).2.2.2.2.1
      (by rw [pollLoopEvents_length])⟩
  · intro k iters pos hreach w₁ w₂ h1 h2
    have hd1 := le_trans h1 (pollTrace_facts (iters w₁) (pos w₁)).2.2.2.2.2
    have hd2 := le_trans h2 (pollTrace_facts (iters w₂) (pos w₂)).2.2.2.2.2
    exact mutex_exclusion k iters pos hreach w₁ w₂ hd1 hd2

/-- Witness for C7 (amended) at one worker, one iteration: the sleep runs at
depth 1, the trace is balanced, and in the one-step-reachable state after
`acquire` the exclusion conclusion holds trivially. -/
theorem c7_witness :
    (depthBefore (pollLoopEvents 1) 1 = 1 ∧
      depthBefore (pollLoopEvents 1) (pollLoopEvents 1).length = 0) ∧
    ∀ w₁ w₂ : Fin 1,
      1 ≤ inFlightBefore (pollLoopEvents 1) 3 →
      1 ≤ inFlightBefore (pollLoopEvents 1) 3 → w₁ = w₂ := by
  constructor
  · exact ⟨(c7_mutex_discipline.1 1 1).1 rfl, (c7_mutex_discipline.1 1 1).2.2.2⟩
  · intro w₁ w₂ h1 h2
    have hupd : ∀ (p : Fin 1 → Nat) (v : Nat),
        Function.update p 0 v = fun _ => v := by
      intro p v
      funext x
      have hx : x = 0 := Subsingleton.elim x 0
      rw [hx, Function.update_same]
    have s1 : MutexStep 1 (fun _ => 1) (fun _ => 0) (fun _ => 1) := by
      have h := @MutexStep.exec 1 (fun _ => 1)
        (fun _ => (0 : Nat)) 0 LockEvent.acquire rfl (fun _ _ => rfl)
      rwa [hupd] at h
    have s2 : MutexStep 1 (fun _ => 1) (fun _ => 1) (fun _ => 2) := by
      have h := @MutexStep.exec 1 (fun _ => 1)
        (fun _ => (1 : Nat)) 0 LockEvent.sleep rfl (fun hc => nomatch hc)
      rwa [hupd] at h
    have s3 : MutexStep 1 (fun _ => 1) (fun _ => 2) (fun _ => 3) := by
      have h := @MutexStep.exec 1 (fun _ => 1)
        (fun _ => (2 : Nat)) 0 LockEvent.requestBegin rfl (fun hc => nomatch hc)
      rwa [hupd] at h
    exact c7_mutex_discipline.2 1 (fun _ => 1) (fun _ => 3)
      (Relation.ReflTransGen.tail
        (Relation.ReflTransGen.tail
          (Relation.ReflTransGen.tail Relation.ReflTransGen.refl s1) s2) s3)
      w₁ w₂ h1 h2

/-- C9 (code bug, evaluated at the failing input): a finished Run with
recorded outcome `("OK",)` and one buffered report; a late observer attaches.
It does receive the backlog first, but the terminal done event carries
`"U/N/K/N/O/W/N"` — `"/".join("UNKNOWN")` over the characters of the literal
string `"UNKNOWN"` that `add_socket` passes to `report_done` — instead of
the recorded `"OK"`, and the recorded success is overwritten. -/
theorem c9_late_attach_eval :
    (BatchState.add_socket
        { sockets := [], buffered := [ObsMsg.report "master" "all done"],
          isDone := true, success := some (SuccessCode.tup ["OK"]) }).sockets =
      [[ObsMsg.report "master" "all done", ObsMsg.done "U/N/K/N/O/W/N"]] ∧
    (BatchState.add_socket
        { sockets := [], buffered := [ObsMsg.report "master" "all done"],
          isDone := true, success := some (SuccessCode.tup ["OK"]) }).success =
      some (SuccessCode.raw "UNKNOWN") ∧
    encode_success (SuccessCode.tup ["OK"]) = "OK" ∧
    ("U/N/K/N/O/W/N" : String) ≠ "OK" :=
  ⟨rfl, rfl, rfl, by decide⟩

/-- If the message list contains an `ERROR` command preceded only by `ECHO`
or `DONE` commands, processing raises the plain `Exception` — the
`PyErr.other` class. -/
theorem processMessages_error_hit :
    ∀ (pre : List (String × String)) (acc : Option String) (payload : String)
      (rest : List (String × String)),
      (∀ cp ∈ pre, cp.1 = "ECHO" ∨ cp.1 = "DONE") →
      (processMessages (pre ++ ("ERROR", payload) :: rest) acc).2 =
        Except.error PyErr.other := by
  intro pre
  induction pre with
  | nil => intro acc payload rest _; rfl
  | cons cp pre' ih =>
    intro acc payload rest hpre
    obtain ⟨c, p'⟩ := cp
    rcases hpre (c, p') (by simp) with hc | hc <;> subst hc
    · exact ih acc payload rest (fun q hq => hpre q (by simp [hq]))
    · exact ih (some p') payload rest (fun q hq => hpre q (by simp [hq]))

/-- The initial accumulator never lowers the most severe domain. -/
theorem most_severe_init_le :
    ∀ (ds : List ErrorDomain) (a : ErrorDomain),
      a.value ≤ (ds.foldl
        (fun x b => if x.value < b.value then b else x) a).value := by
  intro ds
  induction ds with
  | nil => intro a; exact le_refl _
  | cons d ds' ih =>
    intro a
    refine le_trans ?_ (ih (if a.value < d.value then d else a))
    by_cases h : a.value < d.value <;> simp [h] <;> omega

/-- Every member's domain is dominated by the most severe one. -/
theorem most_severe_mem_le :
    ∀ (ds : List ErrorDomain) (a d : ErrorDomain), d ∈ ds →
      d.value ≤ (ds.foldl
        (fun x b => if x.value < b.value then b else x) a).value := by
  intro ds
  induction ds with
  | nil => intro a d h; simp at h
  | cons d' ds' ih =>
    intro a d h
    rcases List.mem_cons.mp h with rfl | h'
    · refine le_trans ?_ (most_severe_init_le ds' _)
      by_cases hc : a.value < d.value <;> simp [hc] <;> omega
    · exact ih _ d h'

/-- Every line recorded in a protocol section appears in the persisted
protocol, whatever the outcome. -/
theorem foldr_protocol_mem (protocols : String → List String) :
    ∀ (secs : List String) (sec line : String), sec ∈ secs →
      line ∈ protocols sec →
      line ∈ secs.foldr
        (fun section_ parts =>
          if protocols section_ ≠ [] then
            ([String.mk (List.replicate 80 '-'), section_,
              String.mk (List.replicate 80 '-'), ""] ++
                protocols section_ ++ [""]) ++ parts
          else parts)
        [] := by
  intro secs
  induction secs with
  | nil => intro sec line hsec _; simp at hsec
  | cons s ss ih =>
    intro sec line hsec hline
    simp only [List.foldr_cons]
    rcases List.mem_cons.mp hsec with rfl | hs
    · have hne : protocols sec ≠ [] := by
        intro h0; rw [h0] at hline; simp at hline
      rw [if_pos hne]
      refine List.mem_append_left _ ?_
      refine List.mem_append_left _ ?_
      exact List.mem_append_right _ hline
    · have hmem := ih sec line hs hline
      by_cases hne : protocols s ≠ []
      · rw [if_pos hne]
        exact List.mem_append_right _ hmem
      · rw [if_neg hne]
        exact hmem

/-- Every line recorded in a protocol section appears in the persisted
protocol text (`_make_protocol`), whatever the outcome. -/
theorem make_protocol_complete (protocols : String → List String)
    (usernames : List String) (sec line : String)
    (hsec : sec ∈ protocolSections usernames)
    (hline : line ∈ protocols sec) :
    line ∈ make_protocol protocols usernames :=
  foldr_protocol_mem protocols (protocolSections usernames) sec line hsec hline

/-- C5 counterexample: a dispatch that receives `ERROR("session expired")`
returns a result with domain `integrity`, not `interaction` — the `ERROR`
payload is raised as a plain `Exception` (batch.py line 98) and lands in the
catch-all handler (line 122), not in the `TiltrException` one. -/
theorem c5_counterexample :
    take_exam ⟨StartResp.status 200,
        [PollResp.status 200 [("ERROR", "session expired")]]⟩ =
      some (Result.from_error Origin.recorded ErrorDomain.integrity "tb") ∧
    ErrorDomain.integrity ≠ ErrorDomain.interaction :=
  ⟨rfl, by decide⟩

/-- C5 (amended): a dispatch that receives an `ERROR` message returns a
synthetic failed result with domain `integrity`; with such a result among
the per-user results, `analyze` raises before the Export&Verify check ever
runs (its outcome is independent of the round oracle), the Run ends
`FAIL/<worst domain>`, and the persisted protocol still contains every
recorded line of every section. -/
theorem c5_error_message_aborts (pre rest : List (String × String))
    (payload : String) (polls_rest : List PollResp)
    (hpre : ∀ cp ∈ pre, cp.1 = "ECHO" ∨ cp.1 = "DONE") :
    take_exam ⟨StartResp.status 200,
        PollResp.status 200 (pre ++ ("ERROR", payload) :: rest) ::
          polls_rest⟩ =
      some (Result.from_error Origin.recorded ErrorDomain.integrity "tb") ∧
    (∀ (results : List Result) (num : Nat) (checkOk : Nat → Bool),
        Result.from_error Origin.recorded ErrorDomain.integrity "tb" ∈
            results →
        analyze results num checkOk =
            Except.error (get_most_severe_error results) ∧
          ErrorDomain.integrity.value ≤
            (get_most_severe_error results).value ∧
          run_success results num checkOk =
            ["FAIL", (get_most_severe_error results).name]) ∧
    (∀ (protocols : String → List String) (usernames : List String)
        (sec line : String), sec ∈ protocolSections usernames →
        line ∈ protocols sec → line ∈ make_protocol protocols usernames) := by
  refine ⟨?_, ?_, fun protocols usernames sec line hs hl =>
    make_protocol_complete protocols usernames sec line hs hl⟩
  · have hpm := processMessages_error_hit pre Option.none payload rest hpre
    have hpoll : (pollLoop
        (PollResp.status 200 (pre ++ ("ERROR", payload) :: rest) ::
          polls_rest) 0).2.2 = some (Except.error PyErr.other) := by
      simp only [pollLoop, ne_eq, not_true_eq_false, if_false]
      rw [hpm]
    simp only [take_exam]
    rw [hpoll]
    simp
  · intro results num checkOk hmem
    have hle : ErrorDomain.integrity.value ≤
        (get_most_severe_error results).value := by
      have := most_severe_mem_le (results.map Result.get_most_severe_error)
        ErrorDomain.none ErrorDomain.integrity
        (List.mem_map.mpr ⟨_, hmem, rfl⟩)
      exact this
    have hpos : ErrorDomain.none.value <
        (get_most_severe_error results).value := by
      simp only [ErrorDomain.value] at hle ⊢
      omega
    refine ⟨?_, hle, ?_⟩
    · rw [analyze, if_pos hpos]
    · rw [run_success, analyze, if_pos hpos]

/-- Witness for C5 (amended) at a concrete script and result list. -/
theorem c5_witness :
    take_exam ⟨StartResp.status 200,
        [PollResp.status 200
          [("ECHO", "hi"), ("ERROR", "session expired")]]⟩ =
      some (Result.from_error Origin.recorded ErrorDomain.integrity "tb") ∧
    analyze [Result.from_error Origin.recorded ErrorDomain.integrity "tb"] 2
        (fun _ => true) =
      Except.error (get_most_severe_error
        [Result.from_error Origin.recorded ErrorDomain.integrity "tb"]) ∧
    ("x" : String) ∈ make_protocol
      (fun s => if s = "log" then ["x"] else []) ["u1"] :=
  ⟨(c5_error_message_aborts [("ECHO", "hi")] [] "session expired" []
      (by intro cp h; simp at h; simp [h])).1,
   ((c5_error_message_aborts [] [] "e" [] (by intro cp h; simp at h)).2.1
      [Result.from_error Origin.recorded ErrorDomain.integrity "tb"] 2
      (fun _ => true) (by simp)).1,
   (c5_error_message_aborts [] [] "e" [] (by intro cp h; simp at h)).2.2
     (fun s => if s = "log" then ["x"] else []) ["u1"] "log" "x"
     (by simp [protocolSections]) (by simp)⟩

/-! ### Decimal-string support lemmas (for C8 and C3) -/

theorem digitChar_isDigit (n : Nat) : (digitChar n).isDigit = true := by
  rw [digitChar]
  have h : n % 10 < 10 := Nat.mod_lt _ (by norm_num)
  generalize hk : n % 10 = k at h
  interval_cases k <;> decide

theorem digitChar_ne_dot (n : Nat) : digitChar n ≠ '.' := by
  rw [digitChar]
  have h : n % 10 < 10 := Nat.mod_lt _ (by norm_num)
  generalize hk : n % 10 = k at h
  interval_cases k <;> decide

theorem digitChar_val (n : Nat) : (digitChar n).toNat - 48 = n % 10 := by
  rw [digitChar]
  have h : n % 10 < 10 := Nat.mod_lt _ (by norm_num)
  generalize hk : n % 10 = k at h ⊢
  interval_cases k <;> decide

theorem digitChar_eq_zero_iff (n : Nat) : digitChar n = '0' ↔ n % 10 = 0 := by
  rw [digitChar]
  have h : n % 10 < 10 := Nat.mod_lt _ (by norm_num)
  generalize hk : n % 10 = k at h ⊢
  interval_cases k <;> simp <;> decide

theorem natChars_ne_nil (n : Nat) : natChars n ≠ [] := by
  rw [natChars]
  split <;> simp

theorem natChars_digits (n : Nat) : ∀ c ∈ natChars n, c.isDigit = true := by
  induction n using Nat.strong_induction_on with
  | _ n ih =>
    rw [natChars]
    split
    · intro c hc
      simp only [List.mem_singleton] at hc
      rw [hc]; exact digitChar_isDigit n
    · intro c hc
      rcases List.mem_append.mp hc with h | h
      · exact ih (n / 10) (Nat.div_lt_self (by omega) (by omega)) c h
      · simp only [List.mem_singleton] at h
        rw [h]; exact digitChar_isDigit n

theorem dot_not_mem_natChars (n : Nat) : '.' ∉ natChars n := by
  intro h
  have := natChars_digits n '.' h
  simp at this

theorem parseNat_append_singleton (xs : List Char) (c : Char) :
    parseNat (xs ++ [c]) = parseNat xs * 10 + (c.toNat - 48) := by
  rw [parseNat, parseNat, List.foldl_append]
  rfl

theorem parseNat_natChars (n : Nat) : parseNat (natChars n) = n := by
  induction n using Nat.strong_induction_on with
  | _ n ih =>
    rw [natChars]
    split
    · show parseNat ([] ++ [digitChar n]) = n
      rw [parseNat_append_singleton, digitChar_val]
      simp only [parseNat, List.foldl_nil]
      omega
    · rw [parseNat_append_singleton, digitChar_val,
        ih (n / 10) (Nat.div_lt_self (by omega) (by omega))]
      omega

theorem fixChars_length (k : Nat) : ∀ m : Nat, (fixChars k m).length = k := by
  induction k with
  | zero => intro m; rfl
  | succ j ih => intro m; simp [fixChars, ih]

theorem fixChars_digits (k : Nat) :
    ∀ (m : Nat), ∀ c ∈ fixChars k m, c.isDigit = true := by
  induction k with
  | zero => intro m c hc; simp [fixChars] at hc
  | succ j ih =>
    intro m c hc
    rcases List.mem_append.mp hc with h | h
    · exact ih (m / 10) c h
    · simp only [List.mem_singleton] at h
      rw [h]; exact digitChar_isDigit m

theorem dot_not_mem_fixChars (k m : Nat) : '.' ∉ fixChars k m := by
  intro h
  have := fixChars_digits k m '.' h
  simp at this

/-- Splitting one decimal digit off a power-of-ten remainder. -/
theorem mod_pow_succ_eq (m k : Nat) :
    m % 10 ^ (k + 1) = (m / 10 % 10 ^ k) * 10 + m % 10 := by
  have hpow : (10 : Nat) ^ (k + 1) = 10 * 10 ^ k := by ring
  have h1 : m % (10 * 10 ^ k) / 10 = m / 10 % 10 ^ k :=
    Nat.mod_mul_right_div_self m 10 (10 ^ k)
  have h2 : m % (10 * 10 ^ k) % 10 = m % 10 :=
    Nat.mod_mod_of_dvd m (Dvd.intro _ rfl)
  have h3 := Nat.div_add_mod (m % (10 * 10 ^ k)) 10
  rw [hpow]
  omega

theorem parseNat_fixChars (k : Nat) :
    ∀ m : Nat, parseNat (fixChars k m) = m % 10 ^ k := by
  induction k with
  | zero => intro m; simp [fixChars, parseNat, Nat.mod_one]
  | succ j ih =>
    intro m
    rw [fixChars, parseNat_append_singleton, digitChar_val, ih (m / 10),
      mod_pow_succ_eq]

theorem fixChars_all_zero_iff (k : Nat) :
    ∀ m : Nat, (fixChars k m).all (· = '0') = true ↔ m % 10 ^ k = 0 := by
  induction k with
  | zero => intro m; simp [fixChars, Nat.mod_one]
  | succ j ih =>
    intro m
    rw [fixChars]
    simp only [List.all_append, List.all_cons, List.all_nil, Bool.and_true,
      Bool.and_eq_true]
    rw [ih (m / 10)]
    constructor
    · rintro ⟨h1, h2⟩
      have h3 : m % 10 = 0 := (digitChar_eq_zero_iff m).mp (by
        simpa using h2)
      rw [mod_pow_succ_eq, h1, h3]
    · intro h
      rw [mod_pow_succ_eq] at h
      have h1 : m / 10 % 10 ^ j = 0 := by omega
      have h2 : m % 10 = 0 := by omega
      exact ⟨h1, by simpa using (digitChar_eq_zero_iff m).mpr h2⟩

theorem splitDotAux_no_dot :
    ∀ (s acc : List Char), '.' ∉ s →
      splitDotAux s acc = [acc.reverse ++ s] := by
  intro s
  induction s with
  | nil => intro acc _; simp [splitDotAux]
  | cons c cs ih =>
    intro acc h
    have hc : ¬ (c = '.') := fun hc => h (by simp [hc])
    rw [splitDotAux, if_neg hc,
      ih (c :: acc) (fun hm => h (List.mem_cons_of_mem _ hm))]
    simp

theorem splitDotAux_dot :
    ∀ (a acc b : List Char), '.' ∉ a →
      splitDotAux (a ++ '.' :: b) acc =
        (acc.reverse ++ a) :: splitDotAux b [] := by
  intro a
  induction a with
  | nil => intro acc b _; simp [splitDotAux]
  | cons c cs ih =>
    intro acc b h
    have hc : ¬ (c = '.') := fun hc => h (by simp [hc])
    rw [List.cons_append, splitDotAux, if_neg hc,
      ih (c :: acc) b (fun hm => h (List.mem_cons_of_mem _ hm))]
    simp

theorem splitDot_no_dot (s : List Char) (h : '.' ∉ s) : splitDot s = [s] := by
  rw [splitDot, splitDotAux_no_dot s [] h]
  rfl

theorem splitDot_split (a b : List Char) (ha : '.' ∉ a) (hb : '.' ∉ b) :
    splitDot (a ++ '.' :: b) = [a, b] := by
  rw [splitDot, splitDotAux_dot a [] b ha]
  rw [show splitDotAux b [] = splitDot b from rfl, splitDot_no_dot b hb]
  rfl

theorem stripZeros_concat_zero (s : List Char) :
    stripZeros (s ++ ['0']) = stripZeros s := by
  rw [stripZeros, stripZeros, List.reverse_append]
  rfl

theorem stripZeros_concat_ne (s : List Char) (c : Char) (h : ¬ (c = '0')) :
    stripZeros (s ++ [c]) = s ++ [c] := by
  rw [stripZeros, List.reverse_append]
  simp [List.dropWhile, h]

theorem stripZeros_nil : stripZeros [] = [] := rfl

theorem dropWhile_zero_ne_nil (fp : List Char) (hfp : ∃ c ∈ fp, ¬ (c = '0')) :
    ¬ (fp.reverse.dropWhile (· = '0') = []) := by
  intro h
  obtain ⟨c, hc, hne⟩ := hfp
  have := List.dropWhile_eq_nil_iff.mp h c (by simp [hc])
  simp at this
  exact hne this

theorem stripZeros_dot_append (ip fp : List Char)
    (hfp : ∃ c ∈ fp, ¬ (c = '0')) :
    stripZeros (ip ++ '.' :: fp) = ip ++ '.' :: stripZeros fp := by
  rw [stripZeros]
  have hrev : (ip ++ '.' :: fp).reverse = fp.reverse ++ '.' :: ip.reverse := by
    simp
  rw [hrev, List.dropWhile_append]
  have hne := dropWhile_zero_ne_nil fp hfp
  rw [if_neg (by simpa using hne)]
  rw [List.reverse_append]
  simp [stripZeros]

theorem parseNat_all_zero :
    ∀ s : List Char, (∀ c ∈ s, c = '0') → parseNat s = 0 := by
  intro s
  induction s with
  | nil => intro _; rfl
  | cons c cs ih =>
    intro h
    have hc : c = '0' := h c (by simp)
    subst hc
    show parseNat cs = 0
    exact ih (fun d hd => h d (by simp [hd]))

theorem parseNat_stripZeros_val (fp : List Char) :
    (parseNat (stripZeros fp) : ℚ) / 10 ^ (stripZeros fp).length =
      (parseNat fp : ℚ) / 10 ^ fp.length := by
  induction fp using List.reverseRecOn with
  | nil => rfl
  | append_singleton ys c ih =>
    by_cases hc : c = '0'
    · subst hc
      rw [stripZeros_concat_zero, ih, parseNat_append_singleton]
      have hval : ('0' : Char).toNat - 48 = 0 := by decide
      rw [hval, List.length_append, List.length_singleton]
      push_cast
      rw [pow_succ]
      field_simp
      ring
    · rw [stripZeros_concat_ne ys c hc]

theorem renderChars_zero (m : Nat) : renderChars m 0 = natChars m := rfl

theorem renderChars_pos (m k : Nat) (hk : ¬ (k = 0)) :
    renderChars m k = natChars (m / 10 ^ k) ++ '.' :: fixChars k m := by
  rw [renderChars, if_neg hk]

theorem splitDot_renderChars_pos (m k : Nat) (hk : ¬ (k = 0)) :
    splitDot (renderChars m k) = [natChars (m / 10 ^ k), fixChars k m] := by
  rw [renderChars_pos m k hk]
  exact splitDot_split _ _ (dot_not_mem_natChars _) (dot_not_mem_fixChars _ _)

theorem renderChars_getLast (m j : Nat) :
    (renderChars m (j + 1)).getLast? = some (digitChar m) := by
  rw [renderChars_pos m (j + 1) (by omega), fixChars]
  rw [show natChars (m / 10 ^ (j + 1)) ++
      '.' :: (fixChars j (m / 10) ++ [digitChar m]) =
      (natChars (m / 10 ^ (j + 1)) ++ '.' :: fixChars j (m / 10)) ++
        [digitChar m] by simp]
  exact List.getLast?_concat _

theorem reduceDec_value (k : Nat) :
    ∀ m : Nat, (reduceDec m k).1 * 10 ^ k = m * 10 ^ (reduceDec m k).2 := by
  induction k with
  | zero => intro m; rfl
  | succ j ih =>
    intro m
    rw [reduceDec]
    by_cases h : m % 10 = 0
    · rw [if_pos h]
      have := ih (m / 10)
      have hm : m / 10 * 10 = m := by omega
      calc (reduceDec (m / 10) j).1 * 10 ^ (j + 1)
          = (reduceDec (m / 10) j).1 * 10 ^ j * 10 := by ring
        _ = m / 10 * 10 ^ (reduceDec (m / 10) j).2 * 10 := by rw [this]
        _ = m * 10 ^ (reduceDec (m / 10) j).2 := by rw [mul_right_comm, hm]
    · rw [if_neg h]

theorem reduceDec_reduced (k : Nat) :
    ∀ m : Nat, (reduceDec m k).2 = 0 ∨ ¬ ((reduceDec m k).1 % 10 = 0) := by
  induction k with
  | zero => intro m; exact Or.inl rfl
  | succ j ih =>
    intro m
    rw [reduceDec]
    by_cases h : m % 10 = 0
    · rw [if_pos h]; exact ih (m / 10)
    · rw [if_neg h]; exact Or.inr h

theorem reduceDec_of_dvd (k : Nat) :
    ∀ m : Nat, 10 ^ k ∣ m → reduceDec m k = (m / 10 ^ k, 0) := by
  induction k with
  | zero => intro m _; simp [reduceDec]
  | succ j ih =>
    intro m hdvd
    have h10 : m % 10 = 0 := by
      have : (10 : Nat) ∣ m := dvd_trans (dvd_pow_self 10 (by omega)) hdvd
      omega
    rw [reduceDec, if_pos h10, ih (m / 10) (by
      obtain ⟨c, hc⟩ := hdvd
      refine ⟨c, ?_⟩
      rw [hc, pow_succ, mul_right_comm]
      exact Nat.mul_div_cancel _ (by omega))]
    rw [Nat.div_div_eq_div_mul, pow_succ, mul_comm (10 ^ j) 10]

theorem reduced_unique_le (a i b j : Nat) (hij : i ≤ j)
    (hred_b : j = 0 ∨ ¬ (b % 10 = 0))
    (hval : a * 10 ^ j = b * 10 ^ i) : a = b ∧ i = j := by
  obtain ⟨d, rfl⟩ : ∃ d, j = i + d := ⟨j - i, by omega⟩
  have hpow : (10 : Nat) ^ (i + d) = 10 ^ i * 10 ^ d := pow_add 10 i d
  have hval' : a * 10 ^ d = b := by
    have h1 : a * 10 ^ d * 10 ^ i = b * 10 ^ i := by
      rw [← hval, hpow]; ring
    exact Nat.eq_of_mul_eq_mul_right (Nat.pos_pow_of_pos i (by omega)) h1
  cases d with
  | zero => simp at hval'; exact ⟨hval', rfl⟩
  | succ e =>
    exfalso
    rcases hred_b with hj | hmod
    · omega
    · apply hmod
      rw [← hval', pow_succ, ← mul_assoc]
      exact Nat.mul_mod_left _ 10

theorem reduced_unique (a i b j : Nat)
    (hred_a : i = 0 ∨ ¬ (a % 10 = 0))
    (hred_b : j = 0 ∨ ¬ (b % 10 = 0))
    (hval : a * 10 ^ j = b * 10 ^ i) : a = b ∧ i = j := by
  rcases Nat.le_total i j with h | h
  · exact reduced_unique_le a i b j h hred_b hval
  · obtain ⟨h1, h2⟩ := reduced_unique_le b j a i h hred_a hval.symm
    exact ⟨h1.symm, h2.symm⟩

/-- Peeling the last rendered digit off a fixed-point rendering. -/
theorem renderChars_succ (m j : Nat) (hj : ¬ (j = 0)) :
    renderChars m (j + 1) = renderChars (m / 10) j ++ [digitChar m] := by
  rw [renderChars_pos m (j + 1) (by omega), renderChars_pos (m / 10) j hj,
    fixChars]
  have hdiv : m / 10 / 10 ^ j = m / 10 ^ (j + 1) := by
    rw [Nat.div_div_eq_div_mul, ← pow_succ']
  rw [hdiv]
  simp

/-- Stripping trailing zeros off a rendering with a non-zero fraction ends
at the reduced rendering. -/
theorem stripZeros_renderChars (k : Nat) :
    ∀ m : Nat, 1 ≤ k → ¬ (m % 10 ^ k = 0) →
      stripZeros (renderChars m k) =
        renderChars (reduceDec m k).1 (reduceDec m k).2 := by
  induction k with
  | zero => intro m h1 _; omega
  | succ j ih =>
    intro m _ hmod
    by_cases h10 : m % 10 = 0
    · have hj : ¬ (j = 0) := by
        intro h0
        subst h0
        rw [pow_one] at hmod
        exact hmod h10
      rw [renderChars_succ m j hj]
      have hz : digitChar m = '0' := (digitChar_eq_zero_iff m).mpr h10
      rw [hz, stripZeros_concat_zero]
      have hmod' : ¬ (m / 10 % 10 ^ j = 0) := by
        intro h0
        apply hmod
        rw [mod_pow_succ_eq, h0, h10]
      rw [ih (m / 10) (by omega) hmod']
      rw [reduceDec, if_pos h10]
    · have hlast : ¬ (digitChar m = '0') := fun h =>
        h10 ((digitChar_eq_zero_iff m).mp h)
      have hsplit : renderChars m (j + 1) =
          (natChars (m / 10 ^ (j + 1)) ++ '.' :: fixChars j (m / 10)) ++
            [digitChar m] := by
        rw [renderChars_pos m (j + 1) (by omega), fixChars]
        simp
      rw [hsplit, stripZeros_concat_ne _ _ hlast, ← hsplit]
      rw [reduceDec, if_neg h10]

/-- `remove_trailing_zeros` maps the rendering of `(m, k)` to the rendering
of the reduced pair — the heart of trailing-zero canonicalization. -/
theorem removeTZ_renderChars (m k : Nat) :
    removeTZChars (renderChars m k) =
      renderChars (reduceDec m k).1 (reduceDec m k).2 := by
  rcases Nat.eq_zero_or_pos k with rfl | hk
  · have hsp : splitDot (renderChars m 0) = [renderChars m 0] :=
      splitDot_no_dot _ (by rw [renderChars_zero]; exact dot_not_mem_natChars m)
    simp only [removeTZChars, hsp]
    simp [reduceDec, renderChars_zero]
  · have hk0 : ¬ (k = 0) := by omega
    have hsp := splitDot_renderChars_pos m k hk0
    by_cases hdvd : m % 10 ^ k = 0
    · have hall : (fixChars k m).all (· = '0') = true :=
        (fixChars_all_zero_iff k m).mpr hdvd
      simp only [removeTZChars, hsp]
      rw [if_pos (by simp [hall])]
      rw [reduceDec_of_dvd k m (Nat.dvd_of_mod_eq_zero hdvd)]
      rw [renderChars_zero]
      rfl
    · have hnall : ¬ ((fixChars k m).all (· = '0') = true) := fun h =>
        hdvd ((fixChars_all_zero_iff k m).mp h)
      simp only [removeTZChars, hsp]
      rw [if_neg (fun hcon => hnall hcon.2)]
      obtain ⟨j, rfl⟩ : ∃ j, k = j + 1 := ⟨k - 1, by omega⟩
      by_cases h10 : m % 10 = 0
      · rw [if_pos (by
          refine ⟨rfl, ?_⟩
          rw [renderChars_getLast m j]
          rw [(digitChar_eq_zero_iff m).mpr h10])]
        exact stripZeros_renderChars (j + 1) m (by omega) hdvd
      · rw [if_neg (by
          intro hcon
          rw [renderChars_getLast m j] at hcon
          exact h10 ((digitChar_eq_zero_iff m).mp
            (Option.some.inj hcon.2)))]
        rw [reduceDec, if_neg h10]

/-- Parsing a fixed-point rendering recovers the value. -/
theorem parseDec?_renderChars (m k : Nat) :
    parseDec? (renderChars m k) = some ((m : ℚ) / 10 ^ k) := by
  rcases Nat.eq_zero_or_pos k with rfl | hk
  · rw [renderChars_zero, parseDec?]
    rw [if_pos (by
      rw [Bool.and_eq_true, List.all_eq_true, List.any_eq_true]
      constructor
      · intro c hc
        simp [natChars_digits m c hc]
      · obtain ⟨c, hc⟩ := List.exists_mem_of_ne_nil _ (natChars_ne_nil m)
        exact ⟨c, hc, natChars_digits m c hc⟩)]
    rw [splitDot_no_dot _ (dot_not_mem_natChars m)]
    show some ((parseNat (natChars m) : ℚ)) = some ((m : ℚ) / 10 ^ 0)
    rw [parseNat_natChars]
    simp
  · have hk0 : ¬ (k = 0) := by omega
    rw [renderChars_pos m k hk0, parseDec?]
    rw [if_pos (by
      rw [Bool.and_eq_true, List.all_eq_true, List.any_eq_true]
      constructor
      · intro c hc
        rcases List.mem_append.mp hc with h | h
        · simp [natChars_digits _ c h]
        · rcases List.mem_cons.mp h with rfl | h'
          · simp
          · simp [fixChars_digits k m c h']
      · obtain ⟨c, hc⟩ :=
          List.exists_mem_of_ne_nil _ (natChars_ne_nil (m / 10 ^ k))
        exact ⟨c, List.mem_append_left _ hc, natChars_digits _ c hc⟩)]
    rw [splitDot_split _ _ (dot_not_mem_natChars _) (dot_not_mem_fixChars _ _)]
    show some ((parseNat (natChars (m / 10 ^ k)) : ℚ) +
        (parseNat (fixChars k m) : ℚ) / 10 ^ (fixChars k m).length) =
      some ((m : ℚ) / 10 ^ k)
    rw [parseNat_natChars, parseNat_fixChars, fixChars_length]
    congr 1
    have hdm : (m / 10 ^ k : Nat) * 10 ^ k + (m % 10 ^ k : Nat) = m := by
      rw [mul_comm]
      exact Nat.div_add_mod m (10 ^ k)
    have hcast : ((m / 10 ^ k : Nat) : ℚ) * 10 ^ k + ((m % 10 ^ k : Nat) : ℚ)
        = (m : ℚ) := by exact_mod_cast congrArg (Nat.cast : Nat → ℚ) hdm
    have hpow : ((10 : ℚ) ^ k) ≠ 0 := by positivity
    field_simp
    linarith [hcast]

/-- C8 counterexample: the decimal literals `"02.1"` and `"2.10"` denote the
same number, but canonicalize to the distinct strings `"02.1"` and `"2.1"` —
`remove_trailing_zeros` only trims trailing fractional zeros and does not
canonicalize leading zeros, so two arbitrary textual renderings of the same
number need not canonicalize to equal strings. -/
theorem c8_counterexample :
    parseDec? "02.1".data = parseDec? "2.10".data ∧
      ¬ (remove_trailing_zeros "02.1" = remove_trailing_zeros "2.10") := by
  constructor
  · show some ((parseNat ['0', '2'] : ℚ) + (parseNat ['1'] : ℚ) / 10 ^ (1 : Nat)) =
      some ((parseNat ['2'] : ℚ) + (parseNat ['1', '0'] : ℚ) / 10 ^ (2 : Nat))
    rw [show parseNat ['0', '2'] = 2 from rfl, show parseNat ['1'] = 1 from rfl,
      show parseNat ['2'] = 2 from rfl, show parseNat ['1', '0'] = 10 from rfl]
    norm_num
  · decide

/-- Characters of a stripped fraction come from the fraction. -/
theorem stripZeros_subset (fp : List Char) :
    ∀ c ∈ stripZeros fp, c ∈ fp := by
  intro c hc
  rw [stripZeros, List.mem_reverse] at hc
  rw [← List.mem_reverse]
  exact (List.dropWhile_sublist _).subset hc

/-- C8 (amended): `remove_trailing_zeros` preserves the numeric value of
every decimal-literal string with a non-empty integer part, and any two
fixed-point renderings of the same number (as `str(Decimal)` produces:
integer part without leading zeros, `k` fraction digits) canonicalize to
equal strings — so the trailing-zero formatting differences arising inside
the harness never produce false mismatches. -/
theorem c8_canonicalization :
    (∀ ip fp : List Char, ¬ (ip = []) →
        (∀ c ∈ ip, c.isDigit = true) → (∀ c ∈ fp, c.isDigit = true) →
        parseDec? (removeTZChars (ip ++ '.' :: fp)) =
          parseDec? (ip ++ '.' :: fp)) ∧
    (∀ m₁ k₁ m₂ k₂ : Nat, (m₁ : ℚ) / 10 ^ k₁ = (m₂ : ℚ) / 10 ^ k₂ →
        removeTZChars (renderChars m₁ k₁) =
          removeTZChars (renderChars m₂ k₂)) := by
  constructor
  · intro ip fp hne hip hfp
    have hipdot : '.' ∉ ip := fun h => by simpa using hip '.' h
    have hfpdot : '.' ∉ fp := fun h => by simpa using hfp '.' h
    have hsp : splitDot (ip ++ '.' :: fp) = [ip, fp] :=
      splitDot_split ip fp hipdot hfpdot
    have hcondS : ((ip ++ '.' :: fp).all (fun c => c.isDigit || c = '.') &&
        (ip ++ '.' :: fp).any Char.isDigit) = true := by
      rw [Bool.and_eq_true, List.all_eq_true, List.any_eq_true]
      constructor
      · intro c hc
        rcases List.mem_append.mp hc with h | h
        · simp [hip c h]
        · rcases List.mem_cons.mp h with rfl | h'
          · simp
          · simp [hfp c h']
      · obtain ⟨c, hc⟩ := List.exists_mem_of_ne_nil _ hne
        exact ⟨c, List.mem_append_left _ hc, hip c hc⟩
    have hRHS : parseDec? (ip ++ '.' :: fp) =
        some ((parseNat ip : ℚ) + (parseNat fp : ℚ) / 10 ^ fp.length) := by
      rw [parseDec?, if_pos hcondS, hsp]
    have hcondIp : (ip.all (fun c => c.isDigit || c = '.') &&
        ip.any Char.isDigit) = true := by
      rw [Bool.and_eq_true, List.all_eq_true, List.any_eq_true]
      refine ⟨fun c hc => by simp [hip c hc], ?_⟩
      obtain ⟨c, hc⟩ := List.exists_mem_of_ne_nil _ hne
      exact ⟨c, hc, hip c hc⟩
    simp only [removeTZChars, hsp]
    by_cases hall : fp.all (· = '0') = true
    · rw [if_pos ⟨rfl, hall⟩]
      show parseDec? ip = _
      rw [hRHS, parseDec?, if_pos hcondIp, splitDot_no_dot ip hipdot]
      show some ((parseNat ip : ℚ)) = _
      rw [parseNat_all_zero fp (by simpa [List.all_eq_true] using hall)]
      simp
    · rw [if_neg (fun hcon => hall hcon.2)]
      by_cases hlast : (ip ++ '.' :: fp).getLast? = some '0'
      · rw [if_pos ⟨rfl, hlast⟩]
        have hex : ∃ c ∈ fp, ¬ (c = '0') := by
          rw [List.all_eq_true] at hall
          push_neg at hall
          obtain ⟨c, hc, hcne⟩ := hall
          exact ⟨c, hc, by simpa using hcne⟩
        rw [stripZeros_dot_append ip fp hex]
        have hsubdig : ∀ c ∈ stripZeros fp, c.isDigit = true :=
          fun c hc => hfp c (stripZeros_subset fp c hc)
        have hcond' : ((ip ++ '.' :: stripZeros fp).all
            (fun c => c.isDigit || c = '.') &&
            (ip ++ '.' :: stripZeros fp).any Char.isDigit) = true := by
          rw [Bool.and_eq_true, List.all_eq_true, List.any_eq_true]
          constructor
          · intro c hc
            rcases List.mem_append.mp hc with h | h
            · simp [hip c h]
            · rcases List.mem_cons.mp h with rfl | h'
              · simp
              · simp [hsubdig c h']
          · obtain ⟨c, hc⟩ := List.exists_mem_of_ne_nil _ hne
            exact ⟨c, List.mem_append_left _ hc, hip c hc⟩
        rw [parseDec?, if_pos hcond',
          splitDot_split ip (stripZeros fp) hipdot
            (fun h => by simpa using hsubdig '.' h), hRHS]
        show some ((parseNat ip : ℚ) +
            (parseNat (stripZeros fp) : ℚ) / 10 ^ (stripZeros fp).length) = _
        rw [parseNat_stripZeros_val fp]
      · rw [if_neg (fun hcon => hlast hcon.2)]
  · intro m₁ k₁ m₂ k₂ h
    have hp1 : ((10 : ℚ) ^ k₁) ≠ 0 := by positivity
    have hp2 : ((10 : ℚ) ^ k₂) ≠ 0 := by positivity
    have hcross : (m₁ : ℚ) * 10 ^ k₂ = (m₂ : ℚ) * 10 ^ k₁ := by
      field_simp at h
      linarith [h]
    have hv₁ : ((reduceDec m₁ k₁).1 : ℚ) * 10 ^ k₁ =
        (m₁ : ℚ) * 10 ^ (reduceDec m₁ k₁).2 := by
      exact_mod_cast congrArg (Nat.cast : Nat → ℚ) (reduceDec_value k₁ m₁)
    have hv₂ : ((reduceDec m₂ k₂).1 : ℚ) * 10 ^ k₂ =
        (m₂ : ℚ) * 10 ^ (reduceDec m₂ k₂).2 := by
      exact_mod_cast congrArg (Nat.cast : Nat → ℚ) (reduceDec_value k₂ m₂)
    have hQ : ((reduceDec m₁ k₁).1 : ℚ) * 10 ^ (reduceDec m₂ k₂).2 *
        ((10 : ℚ) ^ k₁ * 10 ^ k₂) =
        ((reduceDec m₂ k₂).1 : ℚ) * 10 ^ (reduceDec m₁ k₁).2 *
          ((10 : ℚ) ^ k₁ * 10 ^ k₂) := by
      linear_combination ((10 : ℚ) ^ (reduceDec m₂ k₂).2 * 10 ^ k₂) * hv₁ +
        ((10 : ℚ) ^ (reduceDec m₁ k₁).2 * 10 ^ (reduceDec m₂ k₂).2) * hcross -
        ((10 : ℚ) ^ (reduceDec m₁ k₁).2 * 10 ^ k₁) * hv₂
    have hQ' : ((reduceDec m₁ k₁).1 : ℚ) * 10 ^ (reduceDec m₂ k₂).2 =
        ((reduceDec m₂ k₂).1 : ℚ) * 10 ^ (reduceDec m₁ k₁).2 :=
      mul_right_cancel₀ (by positivity) hQ
    have hNat : (reduceDec m₁ k₁).1 * 10 ^ (reduceDec m₂ k₂).2 =
        (reduceDec m₂ k₂).1 * 10 ^ (reduceDec m₁ k₁).2 := by
      exact_mod_cast hQ'
    obtain ⟨heq1, heq2⟩ := reduced_unique (reduceDec m₁ k₁).1
      (reduceDec m₁ k₁).2 (reduceDec m₂ k₂).1 (reduceDec m₂ k₂).2
      (reduceDec_reduced k₁ m₁) (reduceDec_reduced k₂ m₂) hNat
    rw [removeTZ_renderChars, removeTZ_renderChars, heq1, heq2]

/-- Witness for C8 (amended): `2.00` parses equally before and after
trimming, and the renderings `2` and `2.00` of the same value canonicalize
identically. -/
theorem c8_witness :
    parseDec? (removeTZChars (['2'] ++ '.' :: ['0', '0'])) =
        parseDec? (['2'] ++ '.' :: ['0', '0']) ∧
      removeTZChars (renderChars 2 0) = removeTZChars (renderChars 200 2) :=
  ⟨c8_canonicalization.1 ['2'] ['0', '0'] (by simp) (by decide) (by decide),
   c8_canonicalization.2 2 0 200 2 (by norm_num)⟩

/-! ### Result-store lemmas (for C3) -/

theorem find?_map_update (props : List (Key × Value)) (k : Key) (v : Value)
    (hany : props.any (fun kv => kv.1 = k) = true) :
    (props.map
        (fun kv => if kv.1 = k then (k, v) else kv)).find?
      (fun kv => kv.1 = k) = some (k, v) := by
  induction props with
  | nil => simp at hany
  | cons kv rest ih =>
    by_cases h : kv.1 = k
    · rw [List.map_cons, if_pos h, List.find?_cons_of_pos _ (by simp)]
    · rw [List.map_cons, if_neg h, List.find?_cons_of_neg _ (by simp [h])]
      exact ih (by
        rw [List.any_cons, Bool.or_eq_true] at hany
        rcases hany with h1 | h1
        · exact absurd (of_decide_eq_true h1) h
        · exact h1)

theorem find?_append_of_none {p : (Key × Value) → Bool}
    (l₁ l₂ : List (Key × Value)) (h : l₁.find? p = Option.none) :
    (l₁ ++ l₂).find? p = l₂.find? p := by
  rw [List.find?_append, h]
  rfl

/-- A written key reads back the written value. -/
theorem Result.update_lookup_self (r : Result) (k : Key) (v : Value) :
    (r.update k v).lookup k = some v := by
  simp only [Result.update, Result.lookup]
  by_cases hany : r.properties.any (fun kv => kv.1 = k) = true
  · rw [if_pos hany, find?_map_update r.properties k v hany]
    rfl
  · rw [if_neg hany,
      find?_append_of_none _ _ (List.find?_eq_none.mpr (fun kv hkv hp => by
        exact hany (List.any_eq_true.mpr ⟨kv, hkv, hp⟩)))]
    rw [List.find?_cons_of_pos _ (by simp)]
    rfl

/-- Writing one key leaves every other key's value unchanged. -/
theorem Result.update_lookup_other (r : Result) (k : Key) (v : Value)
    (k' : Key) (h : ¬ (k' = k)) :
    (r.update k v).lookup k' = r.lookup k' := by
  simp only [Result.update, Result.lookup]
  by_cases hany : r.properties.any (fun kv => kv.1 = k) = true
  · rw [if_pos hany]
    congr 1
    induction r.properties with
    | nil => rfl
    | cons kv rest ih =>
      by_cases hk : kv.1 = k
      · rw [List.map_cons, if_pos hk,
          List.find?_cons_of_neg _ (by
            simp only [decide_eq_true_eq]
            exact fun hc => h hc.symm),
          List.find?_cons_of_neg _ (by
            simp only [decide_eq_true_eq, hk]
            exact fun hc => h hc.symm)]
        exact ih
      · rw [List.map_cons, if_neg hk]
        by_cases hk' : kv.1 = k'
        · rw [List.find?_cons_of_pos _ (by simp [hk']),
            List.find?_cons_of_pos _ (by simp [hk'])]
        · rw [List.find?_cons_of_neg _ (by simp [hk']),
            List.find?_cons_of_neg _ (by simp [hk'])]
          exact ih
  · rw [if_neg hany]
    congr 1
    rw [List.find?_append]
    rw [List.find?_cons_of_neg _ (by
      simp only [decide_eq_true_eq]
      exact fun hc => h hc.symm), List.find?_nil]
    cases List.find? (fun kv => kv.1 = k') r.properties <;> rfl

/-- Mapping the in-place overwrite over properties, when the key is not a
per-question score key, leaves the extracted scores unchanged. -/
theorem filterMap_scores_map_update (k : Key) (v : Value)
    (hk : ∀ w : Value, scoreEntry? (k, w) = Option.none) :
    ∀ props : List (Key × Value),
      List.filterMap scoreEntry?
          (props.map (fun kv => if kv.1 = k then (k, v) else kv)) =
        List.filterMap scoreEntry? props := by
  intro props
  induction props with
  | nil => rfl
  | cons kv rest ih =>
    rw [List.map_cons, List.filterMap_cons]
    by_cases h : kv.1 = k
    · rw [if_pos h, hk v, List.filterMap_cons]
      have h2 : scoreEntry? kv = Option.none := by
        have hkv : kv = (k, kv.2) := by
          obtain ⟨k0, w0⟩ := kv
          simp only at h
          rw [h]
        rw [hkv]
        exact hk kv.2
      rw [h2, ih]
    · rw [if_neg h, List.filterMap_cons]
      cases scoreEntry? kv <;> simp [ih]

/-- Updating a key that is not a per-question score key leaves `scores()`
unchanged. -/
theorem Result.scores_update_of_none (r : Result) (k : Key) (v : Value)
    (hk : ∀ w : Value, scoreEntry? (k, w) = Option.none) :
    (r.update k v).scores = r.scores := by
  simp only [Result.update, Result.scores]
  by_cases hany : r.properties.any (fun kv => kv.1 = k) = true
  · rw [if_pos hany]
    exact filterMap_scores_map_update k v hk r.properties
  · rw [if_neg hany, List.filterMap_append]
    have h1 : List.filterMap scoreEntry? [(k, v)] = [] := by
      simp [List.filterMap_cons, hk v]
    rw [h1, List.append_nil]

/-- `scoreEntry?` returns either the stored value or nothing. -/
theorem scoreEntry?_cases (k : Key) (v : Value) :
    scoreEntry? (k, v) = some v ∨ scoreEntry? (k, v) = Option.none := by
  rw [scoreEntry?]
  rcases k with _ | ⟨s1, _ | ⟨s2, _ | ⟨s3, _ | _⟩⟩⟩ <;> (try split) <;> simp

/-- After mapping the in-place overwrite, every extracted score is the
written value or an old one. -/
theorem filterMap_scores_map_update_mem (k : Key) (v : Value) :
    ∀ (props : List (Key × Value)) (w : Value),
      w ∈ List.filterMap scoreEntry?
          (props.map (fun kv => if kv.1 = k then (k, v) else kv)) →
      w = v ∨ w ∈ List.filterMap scoreEntry? props := by
  intro props
  induction props with
  | nil => intro w hw; simp at hw
  | cons kv rest ih =>
    intro w hw
    rw [List.map_cons, List.filterMap_cons] at hw
    rw [List.filterMap_cons]
    by_cases h : kv.1 = k
    · rw [if_pos h] at hw
      cases hse : scoreEntry? (k, v) with
      | none =>
        rw [hse] at hw
        rcases ih w hw with h1 | h1
        · exact Or.inl h1
        · refine Or.inr ?_
          cases hse2 : scoreEntry? kv with
          | none => exact h1
          | some a => exact List.mem_cons_of_mem a h1
      | some w0 =>
        rw [hse] at hw
        rcases List.mem_cons.mp hw with rfl | h1
        · rcases scoreEntry?_cases k v with h2 | h2
          · rw [h2] at hse
            exact Or.inl (Option.some.inj hse).symm
          · rw [h2] at hse; cases hse
        · rcases ih w h1 with h2 | h2
          · exact Or.inl h2
          · refine Or.inr ?_
            cases hse2 : scoreEntry? kv with
            | none => exact h2
            | some a => exact List.mem_cons_of_mem a h2
    · rw [if_neg h] at hw
      cases hse : scoreEntry? kv with
      | none =>
        rw [hse] at hw
        exact ih w hw
      | some w0 =>
        rw [hse] at hw
        rcases List.mem_cons.mp hw with rfl | h1
        · exact Or.inr (List.mem_cons_self _ _)
        · rcases ih w h1 with h2 | h2
          · exact Or.inl h2
          · exact Or.inr (List.mem_cons_of_mem _ h2)

/-- The values in `scores()` after an update: the written value or an old
one. -/
theorem Result.scores_update_mem (r : Result) (k : Key) (v w : Value)
    (hw : w ∈ (r.update k v).scores) : w = v ∨ w ∈ r.scores := by
  simp only [Result.update, Result.scores] at hw ⊢
  by_cases hany : r.properties.any (fun kv => kv.1 = k) = true
  · rw [if_pos hany] at hw
    exact filterMap_scores_map_update_mem k v r.properties w hw
  · rw [if_neg hany, List.filterMap_append] at hw
    rcases List.mem_append.mp hw with h1 | h1
    · exact Or.inr h1
    · rw [List.filterMap_cons] at h1
      rcases scoreEntry?_cases k v with h2 | h2
      · rw [h2] at h1
        rcases List.mem_cons.mp h1 with rfl | h3
        · exact Or.inl rfl
        · simp at h3
      · rw [h2] at h1
        simp at h1

/-- Overwriting a key the answer-collection step ignores does not change
the collected answers (accumulator-general form). -/
theorem collectStep_foldl_map_update (qtitle : String) (k : Key) (v : Value)
    (hstep : ∀ (acc : List (String × Value)) (w : Value),
      collectStep qtitle acc (k, w) = acc) :
    ∀ (props : List (Key × Value)) (acc : List (String × Value)),
      (props.map (fun kv => if kv.1 = k then (k, v) else kv)).foldl
          (collectStep qtitle) acc =
        props.foldl (collectStep qtitle) acc := by
  intro props
  induction props with
  | nil => intro acc; rfl
  | cons kv rest ih =>
    intro acc
    rw [List.map_cons, List.foldl_cons, List.foldl_cons]
    by_cases h : kv.1 = k
    · rw [if_pos h, hstep acc v]
      have hkv : collectStep qtitle acc kv = acc := by
        have hkv2 : kv = (k, kv.2) := by
          obtain ⟨a, b⟩ := kv
          simp only at h
          rw [h]
        rw [hkv2]
        exact hstep acc kv.2
      rw [hkv]
      exact ih acc
    · rw [if_neg h]
      exact ih (collectStep qtitle acc kv)

/-- The answer-collection step ignores per-question score keys. -/
theorem collectStep_score_key (qtitle t : String)
    (acc : List (String × Value)) (w : Value) :
    collectStep qtitle acc (["question", t, "score"], w) = acc := rfl

/-- The answer-collection step ignores exam-total keys. -/
theorem collectStep_exam_key (qtitle a b c : String)
    (acc : List (String × Value)) (w : Value) :
    collectStep qtitle acc (["exam", a, b], w) = acc := rfl

/-- `Result.update` with an ignored key preserves the collected answers. -/
theorem collectAnswers_update_neutral (r : Result) (k : Key) (v : Value)
    (qtitle : String)
    (hstep : ∀ (acc : List (String × Value)) (w : Value),
      collectStep qtitle acc (k, w) = acc) :
    collectAnswers (r.update k v).properties qtitle =
      collectAnswers r.properties qtitle := by
  simp only [Result.update, collectAnswers]
  by_cases hany : r.properties.any (fun kv => kv.1 = k) = true
  · rw [if_pos hany]
    exact collectStep_foldl_map_update qtitle k v hstep r.properties []
  · rw [if_neg hany, List.foldl_append]
    exact hstep _ v

/-- A fold whose step is an `Option.bind` never recovers from `none`. -/
theorem foldl_option_bind_none {α β : Type} (g : β → α → Option α)
    (l : List β) :
    l.foldl (fun acc b => acc.bind (g b)) Option.none = Option.none := by
  induction l with
  | nil => rfl
  | cons b rest ih => rw [List.foldl_cons]; exact ih

/-- `mapResults` preserves length and acts pointwise. -/
theorem mapResults_get? (f : Result → Option Result) :
    ∀ (l l' : List Result), mapResults f l = some l' →
      l'.length = l.length ∧
        ∀ (i : Nat) (r : Result), l.get? i = some r →
          ∃ r', l'.get? i = some r' ∧ f r = some r' := by
  intro l
  induction l with
  | nil =>
    intro l' h
    rw [mapResults] at h
    refine ⟨by rw [← Option.some.inj h], ?_⟩
    intro i r hr
    simp at hr
  | cons r rest ih =>
    intro l' h
    rw [mapResults] at h
    cases hf : f r with
    | none => rw [hf] at h; simp at h
    | some r₁ =>
      rw [hf] at h
      cases hm : mapResults f rest with
      | none => rw [hm] at h; simp at h
      | some rs =>
        rw [hm] at h
        simp only [Option.some_bind, Option.map_some'] at h
        obtain ⟨hlen, hpt⟩ := ih rs hm
        rw [← Option.some.inj h]
        refine ⟨by simp [hlen], ?_⟩
        intro i r0 hr0
        cases i with
        | zero =>
          rw [List.get?_cons_zero] at hr0 ⊢
          exact ⟨r₁, rfl, by rw [← Option.some.inj hr0]; exact hf⟩
        | succ j =>
          rw [List.get?_cons_succ] at hr0 ⊢
          exact hpt j r0 hr0

/-- Unfolding one question of the per-result restriction. -/
theorem applyPerResult_cons
    (tq : String × List (String × MultipleChoiceItem))
    (qs : List (String × List (String × MultipleChoiceItem)))
    (modified : List String) (r : Result) :
    applyPerResult (tq :: qs) modified r =
      (if tq.1 ∈ modified then recomputeQuestion tq.1 tq.2 r
       else some r).bind (fun r₁ => applyPerResult qs modified r₁) := by
  rw [applyPerResult, List.foldl_cons]
  have h0 : (some r).bind
      (fun r' => if tq.1 ∈ modified then recomputeQuestion tq.1 tq.2 r'
        else some r') =
      if tq.1 ∈ modified then recomputeQuestion tq.1 tq.2 r else some r := rfl
  rw [h0]
  cases hstep : (if tq.1 ∈ modified then recomputeQuestion tq.1 tq.2 r
      else some r) with
  | none =>
    rw [Option.none_bind]
    exact foldl_option_bind_none _ qs
  | some r₁ => rfl

/-- `recomputeQuestion` is a single score-key update with the recomputed,
trimmed score. -/
theorem recomputeQuestion_eq (title : String)
    (choices : List (String × MultipleChoiceItem)) (r : Result) :
    recomputeQuestion title choices r =
      (compute_score choices (collectAnswers r.properties title)).map
        (fun sc =>
          r.update ["question", title, "score"]
            (Value.str (canonScore sc))) := rfl

/-- The question-loop fold over all results acts pointwise as
`applyPerResult`. -/
theorem step1_pointwise (modified : List String) :
    ∀ (qs : List (String × List (String × MultipleChoiceItem)))
      (rs rs' : List Result),
      qs.foldl
          (fun acc tq =>
            acc.bind fun l =>
              if tq.1 ∈ modified then
                mapResults (recomputeQuestion tq.1 tq.2) l
              else some l)
          (some rs) = some rs' →
      rs'.length = rs.length ∧
        ∀ (i : Nat) (r : Result), rs.get? i = some r →
          ∃ r', rs'.get? i = some r' ∧
            applyPerResult qs modified r = some r' := by
  intro qs
  induction qs with
  | nil =>
    intro rs rs' h
    rw [List.foldl_nil] at h
    rw [← Option.some.inj h]
    exact ⟨rfl, fun i r hr => ⟨r, hr, rfl⟩⟩
  | cons tq qs' ih =>
    intro rs rs' h
    rw [List.foldl_cons] at h
    have h0 : (some rs).bind
        (fun l => if tq.1 ∈ modified then
            mapResults (recomputeQuestion tq.1 tq.2) l else some l) =
        if tq.1 ∈ modified then
          mapResults (recomputeQuestion tq.1 tq.2) rs else some rs := rfl
    rw [h0] at h
    cases hstep : (if tq.1 ∈ modified then
        mapResults (recomputeQuestion tq.1 tq.2) rs else some rs) with
    | none =>
      rw [hstep] at h
      rw [foldl_option_bind_none] at h
      cases h
    | some rs₁ =>
      rw [hstep] at h
      obtain ⟨hlen, hpt⟩ := ih rs₁ rs' h
      have hstep_len_pt : rs₁.length = rs.length ∧
          ∀ (i : Nat) (r : Result), rs.get? i = some r →
            ∃ r₁, rs₁.get? i = some r₁ ∧
              (if tq.1 ∈ modified then recomputeQuestion tq.1 tq.2 r
               else some r) = some r₁ := by
        by_cases hm : tq.1 ∈ modified
        · rw [if_pos hm] at hstep
          obtain ⟨hl, hp⟩ := mapResults_get? _ rs rs₁ hstep
          exact ⟨hl, fun i r hr => by
            obtain ⟨r₁, h1, h2⟩ := hp i r hr
            exact ⟨r₁, h1, by rw [if_pos hm]; exact h2⟩⟩
        · rw [if_neg hm] at hstep
          rw [← Option.some.inj hstep]
          exact ⟨rfl, fun i r hr => ⟨r, hr, by rw [if_neg hm]⟩⟩
      obtain ⟨hl1, hp1⟩ := hstep_len_pt
      refine ⟨by rw [hlen, hl1], ?_⟩
      intro i r hr
      obtain ⟨r₁, hr₁, hstep₁⟩ := hp1 i r hr
      obtain ⟨r', hr', happ'⟩ := hpt i r₁ hr₁
      refine ⟨r', hr', ?_⟩
      rw [applyPerResult_cons, hstep₁, Option.some_bind]
      exact happ'

theorem DecVal_zero : DecVal 0 := by
  refine ⟨le_refl 0, ?_⟩
  rw [mul_zero]
  rfl

theorem DecVal_add (a b : ℚ) (ha : DecVal a) (hb : DecVal b) :
    DecVal (a + b) := by
  refine ⟨add_nonneg ha.1 hb.1, ?_⟩
  have ha2 := (Rat.den_eq_one_iff _).mp ha.2
  have hb2 := (Rat.den_eq_one_iff _).mp hb.2
  have hsum : (10 : ℚ) ^ 20 * (a + b) =
      ((((10 : ℚ) ^ 20 * a).num + ((10 : ℚ) ^ 20 * b).num : ℤ) : ℚ) := by
    push_cast
    rw [ha2, hb2]
    ring
  rw [hsum]
  exact Rat.den_intCast _

/-- `dict[key]` only returns stored values. -/
theorem alistGet?_mem {α : Type} (l : List (String × α)) (key : String)
    (a : α) (h : alistGet? l key = some a) : (key, a) ∈ l := by
  rw [alistGet?] at h
  cases hf : l.find? (fun kv => kv.1 = key) with
  | none => rw [hf] at h; cases h
  | some kv =>
    rw [hf] at h
    have hkey : kv.1 = key := by
      have := List.find?_some hf
      simpa using this
    have hmem := List.mem_of_find?_eq_some hf
    have hval : kv.2 = a := Option.some.inj h
    have : kv = (key, a) := by
      obtain ⟨k0, v0⟩ := kv
      simp only at hkey hval
      rw [hkey, hval]
    rw [← this]
    exact hmem

/-- A score computed from well-behaved weights is well-behaved. -/
theorem compute_score_DecVal (choices : List (String × MultipleChoiceItem))
    (hw : ∀ c ∈ choices,
      DecVal c.2.checked_score ∧ DecVal c.2.unchecked_score) :
    ∀ (answers : List (String × Value)) (acc : ℚ), DecVal acc →
      ∀ sc : ℚ,
        answers.foldl
            (fun acc lv =>
              acc.bind fun score =>
                (alistGet? choices lv.1).map fun item =>
                  if lv.2.truthy then score + item.checked_score
                  else score + item.unchecked_score)
            (some acc) = some sc →
        DecVal sc := by
  intro answers
  induction answers with
  | nil =>
    intro acc hacc sc h
    rw [List.foldl_nil] at h
    rw [← Option.some.inj h]
    exact hacc
  | cons lv rest ih =>
    intro acc hacc sc h
    rw [List.foldl_cons] at h
    cases hget : alistGet? choices lv.1 with
    | none =>
      rw [show (some acc).bind (fun score =>
          (alistGet? choices lv.1).map fun item =>
            if lv.2.truthy then score + item.checked_score
            else score + item.unchecked_score) = Option.none by
          rw [Option.some_bind, hget]; rfl] at h
      rw [foldl_option_bind_none] at h
      cases h
    | some item =>
      have hitem := hw (lv.1, item) (alistGet?_mem choices lv.1 item hget)
      have hstep : (some acc).bind (fun score =>
          (alistGet? choices lv.1).map fun item =>
            if lv.2.truthy then score + item.checked_score
            else score + item.unchecked_score) =
          some (if lv.2.truthy then acc + item.checked_score
            else acc + item.unchecked_score) := by
        rw [Option.some_bind, hget]; rfl
      rw [hstep] at h
      refine ih _ ?_ sc h
      by_cases ht : lv.2.truthy
      · rw [if_pos ht]; exact DecVal_add acc _ hacc hitem.1
      · rw [if_neg ht]; exact DecVal_add acc _ hacc hitem.2

/-- A sum of well-behaved stored scores exists and is well-behaved. -/
theorem sumScores_foldl_DecVal :
    ∀ (vs : List Value) (acc : ℚ), DecVal acc →
      (∀ v ∈ vs, ∃ x, valueToDec? v = some x ∧ DecVal x) →
      ∃ tot, vs.foldl
          (fun acc v => acc.bind fun s => (valueToDec? v).map (s + ·))
          (some acc) = some tot ∧ DecVal tot := by
  intro vs
  induction vs with
  | nil => intro acc hacc _; exact ⟨acc, rfl, hacc⟩
  | cons v rest ih =>
    intro acc hacc hall
    obtain ⟨x, hx, hdx⟩ := hall v (by simp)
    have hstep : (some acc).bind
        (fun s => (valueToDec? v).map (s + ·)) = some (acc + x) := by
      rw [Option.some_bind, hx]; rfl
    rw [List.foldl_cons, hstep]
    exact ih (acc + x) (DecVal_add acc x hacc hdx)
      (fun w hw => hall w (by simp [hw]))

/-- `str(Decimal)` of a well-behaved non-negative value is a fixed-point
rendering of it. -/
theorem decStr_eq (x : ℚ) (hx : 0 ≤ x)
    (hden : ((10 : ℚ) ^ 20 * x).den = 1) :
    ∃ m k, decStr x = renderChars m k ∧ (m : ℚ) = 10 ^ k * x := by
  rw [decStr]
  have hsome : ((List.range 41).find?
      (fun k => ((10 : ℚ) ^ k * x).den = 1)).isSome :=
    List.find?_isSome.mpr ⟨20, by simp, by simp [hden]⟩
  obtain ⟨k, hk⟩ := Option.isSome_iff_exists.mp hsome
  rw [hk]
  have hp : ((10 : ℚ) ^ k * x).den = 1 := by
    simpa using List.find?_some hk
  refine ⟨((10 : ℚ) ^ k * x).num.toNat, k, rfl, ?_⟩
  have hnn : 0 ≤ (10 : ℚ) ^ k * x := by positivity
  have h1 : ((((10 : ℚ) ^ k * x).num.toNat : ℕ) : ℚ) =
      ((((10 : ℚ) ^ k * x).num : ℤ) : ℚ) := by
    exact_mod_cast congrArg (Int.cast : ℤ → ℚ)
      (Int.toNat_of_nonneg (Rat.num_nonneg.mpr hnn))
  rw [h1, (Rat.den_eq_one_iff _).mp hp]

/-- Round trip: the canonical stored form of a well-behaved score parses
back to the score itself. -/
theorem parseDec?_canonScore (x : ℚ) (hx : 0 ≤ x)
    (hden : ((10 : ℚ) ^ 20 * x).den = 1) :
    parseDec? (canonScore x).data = some x := by
  obtain ⟨m, k, hd, hm⟩ := decStr_eq x hx hden
  have hdata : (canonScore x).data = removeTZChars (decStr x) := rfl
  rw [hdata, hd, removeTZ_renderChars, parseDec?_renderChars]
  refine congrArg some ?_
  have hv : ((reduceDec m k).1 : ℚ) * 10 ^ k =
      (m : ℚ) * 10 ^ (reduceDec m k).2 := by
    exact_mod_cast congrArg (Nat.cast : ℕ → ℚ) (reduceDec_value k m)
  have h2 : ((reduceDec m k).1 : ℚ) * 10 ^ k =
      (x * 10 ^ (reduceDec m k).2) * 10 ^ k := by
    rw [hv, hm]; ring
  have ha : ((reduceDec m k).1 : ℚ) = x * 10 ^ (reduceDec m k).2 :=
    mul_right_cancel₀ (by positivity) h2
  rw [ha]
  field_simp

/-- The written score value reads back numerically. -/
theorem valueToDec?_canonScore (x : ℚ) (hx : DecVal x) :
    valueToDec? (Value.str (canonScore x)) = some x :=
  parseDec?_canonScore x hx.1 hx.2

/-- Successful recomputation of one question: the computed score exists and
the result is a single score-key update. -/
theorem recomputeQuestion_some (title : String)
    (choices : List (String × MultipleChoiceItem)) (r r₁ : Result)
    (h : recomputeQuestion title choices r = some r₁) :
    ∃ sc, compute_score choices (collectAnswers r.properties title) =
        some sc ∧
      r₁ = r.update ["question", title, "score"]
        (Value.str (canonScore sc)) := by
  rw [recomputeQuestion_eq] at h
  cases hc : compute_score choices (collectAnswers r.properties title) with
  | none => rw [hc] at h; cases h
  | some sc =>
    rw [hc] at h
    exact ⟨sc, rfl, (Option.some.inj h).symm⟩

/-- Questions whose titles are not processed leave a question's stored
score untouched. -/
theorem applyPerResult_lookup_score_preserved (modified : List String) :
    ∀ (qs : List (String × List (String × MultipleChoiceItem)))
      (r rmid : Result) (title : String),
      applyPerResult qs modified r = some rmid →
      title ∉ qs.map Prod.fst →
      rmid.lookup ["question", title, "score"] =
        r.lookup ["question", title, "score"] := by
  intro qs
  induction qs with
  | nil =>
    intro r rmid title h _
    rw [← Option.some.inj h]
  | cons tq qs' ih =>
    intro r rmid title h hnot
    rw [List.map_cons] at hnot
    have hnot1 : ¬ (title = tq.1) := fun he => hnot (by simp [he])
    have hnot2 : title ∉ qs'.map Prod.fst := fun he => hnot (by simp [he])
    rw [applyPerResult_cons] at h
    cases hstep : (if tq.1 ∈ modified then recomputeQuestion tq.1 tq.2 r
        else some r) with
    | none => rw [hstep] at h; cases h
    | some r₁ =>
      rw [hstep, Option.some_bind] at h
      have hr₁ : r₁.lookup ["question", title, "score"] =
          r.lookup ["question", title, "score"] := by
        by_cases hm : tq.1 ∈ modified
        · rw [if_pos hm] at hstep
          obtain ⟨sc, _, rfl⟩ := recomputeQuestion_some tq.1 tq.2 r r₁ hstep
          exact Result.update_lookup_other _ _ _ _ (by simp [hnot1])
        · rw [if_neg hm] at hstep
          rw [Option.some.inj hstep]
      rw [ih r₁ rmid title h hnot2, hr₁]

/-- What one user's result looks like after the question loop: answers are
untouched, every score value is original or a recomputed one, and every
modified question's stored score is the recomputed, trimmed score of the
user's original answers. -/
theorem applyPerResult_spec (modified : List String) :
    ∀ (qs : List (String × List (String × MultipleChoiceItem)))
      (r rmid : Result),
      applyPerResult qs modified r = some rmid →
      (∀ t, collectAnswers rmid.properties t =
          collectAnswers r.properties t) ∧
      (∀ w ∈ rmid.scores, w ∈ r.scores ∨ ∃ tq sc, tq ∈ qs ∧
          compute_score tq.2 (collectAnswers r.properties tq.1) = some sc ∧
          w = Value.str (canonScore sc)) ∧
      ((qs.map Prod.fst).Nodup →
        ∀ (title : String) (choices : List (String × MultipleChoiceItem)),
          (title, choices) ∈ qs → title ∈ modified →
          ∃ sc, compute_score choices (collectAnswers r.properties title) =
              some sc ∧
            rmid.lookup ["question", title, "score"] =
              some (Value.str (canonScore sc))) := by
  intro qs
  induction qs with
  | nil =>
    intro r rmid h
    rw [← Option.some.inj h]
    refine ⟨fun t => rfl, fun w hw => Or.inl hw, ?_⟩
    intro _ title choices hmem _
    simp at hmem
  | cons tq qs' ih =>
    intro r rmid h
    rw [applyPerResult_cons] at h
    cases hstep : (if tq.1 ∈ modified then recomputeQuestion tq.1 tq.2 r
        else some r) with
    | none => rw [hstep] at h; cases h
    | some r₁ =>
      rw [hstep, Option.some_bind] at h
      obtain ⟨ih1, ih2, ih3⟩ := ih r₁ rmid h
      by_cases hm : tq.1 ∈ modified
      · rw [if_pos hm] at hstep
        obtain ⟨sc₀, hc₀, rfl⟩ := recomputeQuestion_some tq.1 tq.2 r r₁ hstep
        have F1 : ∀ t, collectAnswers
            (r.update ["question", tq.1, "score"]
              (Value.str (canonScore sc₀))).properties t =
            collectAnswers r.properties t := fun t =>
          collectAnswers_update_neutral r _ _ t
            (fun acc w => collectStep_score_key t tq.1 acc w)
        refine ⟨fun t => (ih1 t).trans (F1 t), ?_, ?_⟩
        · intro w hw
          rcases ih2 w hw with h1 | ⟨tq', sc', htq', hc', hw'⟩
          · rcases Result.scores_update_mem r _ _ w h1 with h2 | h2
            · exact Or.inr ⟨tq, sc₀, by simp, hc₀, h2⟩
            · exact Or.inl h2
          · exact Or.inr ⟨tq', sc', by simp [htq'], by
              rw [← F1 tq'.1]; exact hc', hw'⟩
        · intro hnodup title choices hmem hmodt
          rw [List.map_cons, List.nodup_cons] at hnodup
          rcases List.mem_cons.mp hmem with heq | hmem'
          · have htitle : title = tq.1 := congrArg Prod.fst heq
            have hchoices : choices = tq.2 := congrArg Prod.snd heq
            subst htitle
            subst hchoices
            refine ⟨sc₀, hc₀, ?_⟩
            rw [applyPerResult_lookup_score_preserved modified qs' _ rmid
              tq.1 h hnodup.1]
            exact Result.update_lookup_self r _ _
          · obtain ⟨sc, hc, hlook⟩ := ih3 hnodup.2 title choices hmem' hmodt
            exact ⟨sc, by rw [← F1 title]; exact hc, hlook⟩
      · rw [if_neg hm] at hstep
        rw [Option.some.inj hstep]
        refine ⟨ih1, ?_, ?_⟩
        · intro w hw
          rcases ih2 w hw with h1 | ⟨tq', sc', htq', hc', hw'⟩
          · exact Or.inl h1
          · exact Or.inr ⟨tq', sc', by simp [htq'], hc', hw'⟩
        · intro hnodup title choices hmem hmodt
          rw [List.map_cons, List.nodup_cons] at hnodup
          rcases List.mem_cons.mp hmem with heq | hmem'
          · exfalso
            have htq : title = tq.1 := congrArg Prod.fst heq
            rw [htq] at hmodt
            exact hm hmodt
          · exact ih3 hnodup.2 title choices hmem' hmodt

/-- Successful total recomputation: the sum exists and both exam keys are
written with its trimmed rendering. -/
theorem recomputeTotals_some (r r' : Result)
    (h : recomputeTotals r = some r') :
    ∃ tot, sumScores r = some tot ∧
      r' = (r.update ["exam", "score", "total"]
          (Value.str (canonScore tot))).update ["exam", "score", "gui"]
        (Value.str (canonScore tot)) := by
  rw [recomputeTotals] at h
  cases hs : sumScores r with
  | none => rw [hs] at h; cases h
  | some tot =>
    rw [hs] at h
    exact ⟨tot, rfl, (Option.some.inj h).symm⟩

/-- C3: after a Readjust round, for every user and every modified question,
the per-question score written into that user's result equals the harness's
own scoring function (`MultipleChoiceQuestion.compute_score`) applied to the
user's originally recorded answers under the new weights, with trailing
zeros trimmed; and the value written at `("exam","score","total")` and
`("exam","score","gui")` equals the sum of all per-question scores in that
result. -/
theorem c3_readjustment_recompute
    (questions : List (String × List (String × MultipleChoiceItem)))
    (modified : List String) (results results' : List Result)
    (title : String) (choices : List (String × MultipleChoiceItem))
    (hnodup : (questions.map Prod.fst).Nodup)
    (hq : (title, choices) ∈ questions)
    (hmod : title ∈ modified)
    (happ : _apply_readjustment questions modified results = some results')
    (hweights : ∀ tq ∈ questions, ∀ c ∈ tq.2,
        DecVal (c.2 : MultipleChoiceItem).checked_score ∧
          DecVal c.2.unchecked_score)
    (hstored : ∀ r ∈ results, ∀ v ∈ r.scores,
        ∃ x, valueToDec? v = some x ∧ DecVal x)
    (i : Nat) (r r' : Result)
    (hri : results.get? i = some r) (hri' : results'.get? i = some r') :
    (∃ sc, compute_score choices (collectAnswers r.properties title) =
        some sc ∧
      r'.lookup ["question", title, "score"] =
        some (Value.str (canonScore sc))) ∧
    (∃ tot, sumScores r' = some tot ∧
      r'.lookup ["exam", "score", "total"] =
        some (Value.str (canonScore tot)) ∧
      r'.lookup ["exam", "score", "gui"] =
        some (Value.str (canonScore tot)) ∧
      parseDec? (canonScore tot).data = some tot) := by
  rw [_apply_readjustment] at happ
  cases hfold : questions.foldl
      (fun acc tq =>
        acc.bind fun rs =>
          if tq.1 ∈ modified then mapResults (recomputeQuestion tq.1 tq.2) rs
          else some rs)
      (some results) with
  | none => rw [hfold] at happ; cases happ
  | some rsmid =>
    rw [hfold, Option.some_bind] at happ
    obtain ⟨hlen1, hpt1⟩ := step1_pointwise modified questions results rsmid
      hfold
    obtain ⟨rmid, hrmid, happly⟩ := hpt1 i r hri
    obtain ⟨hlen2, hpt2⟩ := mapResults_get? recomputeTotals rsmid results' happ
    obtain ⟨r2, hr2, htotals⟩ := hpt2 i rmid hrmid
    have hreq : r2 = r' := Option.some.inj (hr2.symm.trans hri')
    rw [hreq] at htotals
    obtain ⟨spec1, spec2, spec3⟩ := applyPerResult_spec modified questions r
      rmid happly
    obtain ⟨sc, hsc, hlookmid⟩ := spec3 hnodup title choices hq hmod
    obtain ⟨tot, hsum, hrdef⟩ := recomputeTotals_some rmid r' htotals
    have hall : ∀ v ∈ rmid.scores, ∃ x, valueToDec? v = some x ∧ DecVal x := by
      intro v hv
      rcases spec2 v hv with h1 | ⟨tq', sc', htq', hc', hveq⟩
      · exact hstored r (List.get?_mem hri) v h1
      · have hdv : DecVal sc' := compute_score_DecVal tq'.2
          (fun c hc => hweights tq' htq' c hc)
          (collectAnswers r.properties tq'.1) 0 DecVal_zero sc' hc'
        exact ⟨sc', by rw [hveq]; exact valueToDec?_canonScore sc' hdv, hdv⟩
    have hDecTot : DecVal tot := by
      obtain ⟨tot', hfold2, hd⟩ := sumScores_foldl_DecVal rmid.scores 0
        DecVal_zero hall
      have hst : sumScores rmid = some tot' := hfold2
      have : tot' = tot := Option.some.inj (hst.symm.trans hsum)
      rw [← this]
      exact hd
    have hscores_eq : r'.scores = rmid.scores := by
      rw [hrdef,
        Result.scores_update_of_none _ ["exam", "score", "gui"] _
          (fun w => rfl),
        Result.scores_update_of_none _ ["exam", "score", "total"] _
          (fun w => rfl)]
    have hsum' : sumScores r' = some tot := by
      have hse : sumScores r' = sumScores rmid := by
        rw [sumScores, sumScores, hscores_eq]
      rw [hse, hsum]
    refine ⟨⟨sc, hsc, ?_⟩, tot, hsum', ?_, ?_,
      parseDec?_canonScore tot hDecTot.1 hDecTot.2⟩
    · rw [hrdef,
        Result.update_lookup_other _ _ _ _ (by simp),
        Result.update_lookup_other _ _ _ _ (by simp)]
      exact hlookmid
    · rw [hrdef,
        Result.update_lookup_other _ _ _ _ (by simp),
        Result.update_lookup_self]
    · rw [hrdef, Result.update_lookup_self]

theorem DecVal_one : DecVal 1 := by
  refine ⟨zero_le_one, ?_⟩
  rw [mul_one]
  have h : ((10 : ℚ) ^ 20) = ((10 ^ 20 : ℕ) : ℚ) := by push_cast; ring
  rw [h]
  exact Rat.den_natCast _

/-- Witness for C3: one modified single-choice question, one user with an
empty result — the recomputed score 0 and total 0 + 0 are written as
claimed. -/
theorem c3_witness :
    (∃ sc, compute_score [("a", (⟨1, 0⟩ : MultipleChoiceItem))]
        (collectAnswers
          (⟨[], ErrorDomain.none, []⟩ : Result).properties "Q1") =
          some sc ∧
      ((((⟨[], ErrorDomain.none, []⟩ : Result).update
            ["question", "Q1", "score"]
            (Value.str (canonScore 0))).update ["exam", "score", "total"]
          (Value.str (canonScore (0 + 0)))).update ["exam", "score", "gui"]
        (Value.str (canonScore (0 + 0)))).lookup
          ["question", "Q1", "score"] = some (Value.str (canonScore sc))) ∧
    (∃ tot, sumScores
        ((((⟨[], ErrorDomain.none, []⟩ : Result).update
              ["question", "Q1", "score"]
              (Value.str (canonScore 0))).update ["exam", "score", "total"]
            (Value.str (canonScore (0 + 0)))).update ["exam", "score", "gui"]
          (Value.str (canonScore (0 + 0)))) = some tot ∧
      ((((⟨[], ErrorDomain.none, []⟩ : Result).update
            ["question", "Q1", "score"]
            (Value.str (canonScore 0))).update ["exam", "score", "total"]
          (Value.str (canonScore (0 + 0)))).update ["exam", "score", "gui"]
        (Value.str (canonScore (0 + 0)))).lookup
          ["exam", "score", "total"] = some (Value.str (canonScore tot)) ∧
      ((((⟨[], ErrorDomain.none, []⟩ : Result).update
            ["question", "Q1", "score"]
            (Value.str (canonScore 0))).update ["exam", "score", "total"]
          (Value.str (canonScore (0 + 0)))).update ["exam", "score", "gui"]
        (Value.str (canonScore (0 + 0)))).lookup
          ["exam", "score", "gui"] = some (Value.str (canonScore tot)) ∧
      parseDec? (canonScore tot).data = some tot) := by
  have h1 : recomputeQuestion "Q1" [("a", (⟨1, 0⟩ : MultipleChoiceItem))]
      (⟨[], ErrorDomain.none, []⟩ : Result) =
      some ((⟨[], ErrorDomain.none, []⟩ : Result).update
        ["question", "Q1", "score"] (Value.str (canonScore 0))) := by
    rw [recomputeQuestion_eq]
    rfl
  have h3 : sumScores ((⟨[], ErrorDomain.none, []⟩ : Result).update
      ["question", "Q1", "score"] (Value.str (canonScore 0))) =
      some ((0 : ℚ) + 0) := by
    have hv := valueToDec?_canonScore 0 DecVal_zero
    rw [sumScores]
    rw [show ((⟨[], ErrorDomain.none, []⟩ : Result).update
        ["question", "Q1", "score"] (Value.str (canonScore 0))).scores =
        [Value.str (canonScore 0)] from rfl]
    rw [List.foldl_cons, List.foldl_nil, Option.some_bind, hv,
      Option.map_some']
  have h4 : recomputeTotals ((⟨[], ErrorDomain.none, []⟩ : Result).update
      ["question", "Q1", "score"] (Value.str (canonScore 0))) =
      some ((((⟨[], ErrorDomain.none, []⟩ : Result).update
            ["question", "Q1", "score"]
            (Value.str (canonScore 0))).update ["exam", "score", "total"]
          (Value.str (canonScore (0 + 0)))).update ["exam", "score", "gui"]
        (Value.str (canonScore (0 + 0)))) := by
    rw [recomputeTotals, h3, Option.map_some']
  have happ : _apply_readjustment
      [("Q1", [("a", (⟨1, 0⟩ : MultipleChoiceItem))])] ["Q1"]
      [(⟨[], ErrorDomain.none, []⟩ : Result)] =
      some [(((⟨[], ErrorDomain.none, []⟩ : Result).update
            ["question", "Q1", "score"]
            (Value.str (canonScore 0))).update ["exam", "score", "total"]
          (Value.str (canonScore (0 + 0)))).update ["exam", "score", "gui"]
        (Value.str (canonScore (0 + 0)))] := by
    rw [_apply_readjustment, List.foldl_cons, List.foldl_nil,
      Option.some_bind, if_pos (List.mem_singleton.mpr rfl)]
    simp only [mapResults, h1, h4, Option.some_bind, Option.map_some']
  exact c3_readjustment_recompute
    [("Q1", [("a", (⟨1, 0⟩ : MultipleChoiceItem))])] ["Q1"]
    [(⟨[], ErrorDomain.none, []⟩ : Result)]
    [(((⟨[], ErrorDomain.none, []⟩ : Result).update
          ["question", "Q1", "score"]
          (Value.str (canonScore 0))).update ["exam", "score", "total"]
        (Value.str (canonScore (0 + 0)))).update ["exam", "score", "gui"]
      (Value.str (canonScore (0 + 0)))]
    "Q1" [("a", (⟨1, 0⟩ : MultipleChoiceItem))]
    (by simp) (List.mem_singleton.mpr rfl) (List.mem_singleton.mpr rfl)
    happ
    (by
      intro tq htq c hc
      rcases List.mem_singleton.mp htq with rfl
      rcases List.mem_singleton.mp hc with rfl
      exact ⟨DecVal_one, DecVal_zero⟩)
    (by
      intro r hr v hv
      rcases List.mem_singleton.mp hr with rfl
      simp [Result.scores] at hv)
    0 _ _ rfl rfl

end Tiltr
